import Mathlib

/-!
Verification of the vector-index core of `mcp_atlassian` (Jira semantic index).

The Python sources under `src/mcp_atlassian/vector/` are shallowly embedded:
pure text utilities become functions on `List Char` (one `Char` per Python
character), the LanceDB tables become Lean lists of records, SQLite state and
the in-process caches become explicit state values threaded through the
operations, datetimes become `Nat` timestamps (seconds), Python floats become
`ℚ` (the arithmetic performed by the code - sums, products by weights,
clamping, comparisons - is exact in this range, and 4-decimal rounding is
modelled as round-half-up, which agrees with Python's round-half-even except
exactly at midpoints), and remote services (Jira HTTP API, embedding
provider, chat LLM) become oracle functions supplied as parameters.
MD5 content hashes are modelled by the hashed content string itself (an
injective stand-in; the code only compares hashes for equality).
-/

namespace McpAtlassian

/-! ## Basic Python string helpers on `List Char` -/

/-- Python `\s` / `str.strip` whitespace set (ASCII): space, tab, newline,
carriage return, vertical tab, form feed. -/
def pyWs (c : Char) : Bool :=
  c = ' ' || c = '\t' || c = '\n' || c = '\r' || c = '\x0b' || c = '\x0c'

/-- Python `str.strip()`: drop whitespace from both ends. -/
def pyStrip (s : List Char) : List Char :=
  (((s.dropWhile pyWs).reverse).dropWhile pyWs).reverse

/-- The pattern `pat` occurs in `s` starting at index `i`. -/
def OccAt (pat s : List Char) (i : Nat) : Prop :=
  (s.drop i).take pat.length = pat

instance (pat s : List Char) (i : Nat) : Decidable (OccAt pat s i) := by
  unfold OccAt; infer_instance

/-- Scan candidate start positions `i, i-1, ..., 0` for an occurrence of
`pat`; returns the largest start index `≤ i`, if any. -/
def pyRfindAux (pat s : List Char) : Nat → Option Nat
  | 0 => if OccAt pat s 0 then some 0 else none
  | i + 1 => if OccAt pat s (i + 1) then some (i + 1) else pyRfindAux pat s i

/-- Python `s.rfind(pat)` (as `Option`: `none` for Python's `-1`): the
greatest index at which `pat` occurs in `s`. -/
def pyRfind (s pat : List Char) : Option Nat :=
  pyRfindAux pat s s.length

theorem pyRfindAux_eq_some (pat s : List Char) (i k : Nat)
    (h : pyRfindAux pat s i = some k) :
    OccAt pat s k ∧ k ≤ i ∧ ∀ j, k < j → j ≤ i → ¬ OccAt pat s j := by
  induction i with
  | zero =>
    unfold pyRfindAux at h
    split at h
    · cases h
      refine ⟨by assumption, Nat.le_refl _, ?_⟩
      intro j hj hj2
      omega
    · cases h
  | succ n ih =>
    unfold pyRfindAux at h
    split at h
    · cases h
      refine ⟨by assumption, Nat.le_refl _, ?_⟩
      intro j hj hj2
      omega
    · rcases ih h with ⟨h1, h2, h3⟩
      refine ⟨h1, Nat.le_succ_of_le h2, ?_⟩
      intro j hj hj2
      rcases Nat.lt_or_ge j (n + 1) with hlt | hge
      · exact h3 j hj (Nat.lt_succ_iff.mp hlt)
      · have : j = n + 1 := by omega
        subst this
        assumption

theorem pyRfindAux_eq_none (pat s : List Char) (i : Nat)
    (h : pyRfindAux pat s i = none) :
    ∀ j, j ≤ i → ¬ OccAt pat s j := by
  induction i with
  | zero =>
    unfold pyRfindAux at h
    split at h
    · cases h
    · intro j hj
      have : j = 0 := by omega
      subst this
      assumption
  | succ n ih =>
    unfold pyRfindAux at h
    split at h
    · cases h
    · intro j hj
      rcases Nat.lt_or_ge j (n + 1) with hlt | hge
      · exact ih h j (Nat.lt_succ_iff.mp hlt)
      · have : j = n + 1 := by omega
        subst this
        assumption

theorem OccAt_le_length (pat s : List Char) (i : Nat) (hp : pat ≠ [])
    (h : OccAt pat s i) : i ≤ s.length := by
  by_contra hc
  have hdrop : s.drop i = [] := by
    apply List.drop_eq_nil_of_le
    omega
  unfold OccAt at h
  rw [hdrop] at h
  simp at h
  exact hp h

theorem pyRfind_eq_some (s pat : List Char) (k : Nat)
    (h : pyRfind s pat = some k) :
    OccAt pat s k ∧ ∀ j, OccAt pat s j → pat ≠ [] → j ≤ k := by
  rcases pyRfindAux_eq_some pat s s.length k h with ⟨h1, h2, h3⟩
  refine ⟨h1, ?_⟩
  intro j hj hp
  by_contra hc
  exact h3 j (by omega) (OccAt_le_length pat s j hp hj) hj

theorem pyRfind_eq_none (s pat : List Char) (hp : pat ≠ [])
    (h : pyRfind s pat = none) : ∀ j, ¬ OccAt pat s j := by
  intro j hj
  exact pyRfindAux_eq_none pat s s.length h j (OccAt_le_length pat s j hp hj) hj

/-! ## `schemas.truncate_at_sentence` (claim C8) -/

/-- The sentence terminators scanned, in the order of the Python loop
`for ending in [". ", "! ", "? ", ".\n", "!\n", "?\n"]`. -/
def sentence_endings : List (List Char) :=
  [['.', ' '], ['!', ' '], ['?', ' '], ['.', '\n'], ['!', '\n'], ['?', '\n']]

/-- The `"..."` suffix appended by the word-boundary and hard-cut branches. -/
def ellipsis : List Char := ['.', '.', '.']

/-- The Python `for ending in [...]` loop: return from the first ending in
list order whose last occurrence lies past `max_chars // 2`. -/
def findEnding (t : List Char) (m : Nat) : List (List Char) → Option Nat
  | [] => none
  | e :: es =>
    match pyRfind t e with
    | some i => if m / 2 < i then some i else findEnding t m es
    | none => findEnding t m es

/-- `schemas.truncate_at_sentence(text, max_chars)`: truncate at a sentence
boundary past `max_chars // 2`, falling back to the last word boundary past
`max_chars // 2` plus `"..."`, falling back to the stripped prefix plus
`"..."`. -/
def truncate_at_sentence (text : List Char) (max_chars : Nat) : List Char :=
  if text.length ≤ max_chars then text
  else
    let truncated := text.take max_chars
    match findEnding truncated max_chars sentence_endings with
    | some last_end => pyStrip (truncated.take (last_end + 1))
    | none =>
      match pyRfind truncated [' '] with
      | some last_space =>
        if max_chars / 2 < last_space then
          pyStrip (truncated.take last_space) ++ ellipsis
        else pyStrip truncated ++ ellipsis
      | none => pyStrip truncated ++ ellipsis

/-- The truncation function as claim C8 words it: cut at the latest
terminator occurrence among all six terminators (not at the latest
occurrence of the first terminator, in a fixed order, that qualifies), and
hard-cut "at max characters" with no ellipsis in the final fallback. -/
def truncate_claim_version (text : List Char) (max_chars : Nat) : List Char :=
  if text.length ≤ max_chars then text
  else
    let truncated := text.take max_chars
    let cands := sentence_endings.filterMap (fun e =>
      match pyRfind truncated e with
      | some i => if max_chars / 2 < i then some i else none
      | none => none)
    match cands.max? with
    | some i => pyStrip (truncated.take (i + 1))
    | none =>
      match pyRfind truncated [' '] with
      | some last_space =>
        if max_chars / 2 < last_space then
          pyStrip (truncated.take last_space) ++ ellipsis
        else truncated
      | none => truncated

/-- C8 counterexample: on `"xxxxxx. ! zzz"` with `max_chars = 10`, the ten
character prefix is `"xxxxxx. ! "`; the latest qualifying terminator among
all six is `"! "` at index 8, so the claim predicts a cut keeping the `"!"`,
but the code returns at the first terminator in loop order (`". "`, index 6)
and yields `"xxxxxx."`. -/
theorem truncate_at_sentence_claim_false :
    truncate_claim_version
        ['x', 'x', 'x', 'x', 'x', 'x', '.', ' ', '!', ' ', 'z', 'z', 'z'] 10 ≠
      truncate_at_sentence
        ['x', 'x', 'x', 'x', 'x', 'x', '.', ' ', '!', ' ', 'z', 'z', 'z'] 10 ∧
    truncate_at_sentence
        ['x', 'x', 'x', 'x', 'x', 'x', '.', ' ', '!', ' ', 'z', 'z', 'z'] 10 =
      ['x', 'x', 'x', 'x', 'x', 'x', '.'] ∧
    truncate_claim_version
        ['x', 'x', 'x', 'x', 'x', 'x', '.', ' ', '!', ' ', 'z', 'z', 'z'] 10 =
      ['x', 'x', 'x', 'x', 'x', 'x', '.', ' ', '!'] := by
  refine ⟨by decide, by decide, by decide⟩

theorem findEnding_eq_none (t : List Char) (m : Nat) :
    ∀ es : List (List Char), (∀ e ∈ es, e ≠ []) → findEnding t m es = none →
      ∀ e ∈ es, ∀ j, m / 2 < j → ¬ OccAt e t j := by
  intro es
  induction es with
  | nil =>
    intro _ _ e he
    cases he
  | cons e0 tl ih =>
    intro hes h e he j hj hocc
    unfold findEnding at h
    rcases hfind : pyRfind t e0 with _ | i <;> rw [hfind] at h
    · rcases List.mem_cons.mp he with he1 | he1
      · subst he1
        exact pyRfind_eq_none t e (hes e (by simp)) hfind j hocc
      · exact ih (fun x hx => hes x (by simp [hx])) h e he1 j hj hocc
    · by_cases hmi : m / 2 < i
      · simp [hmi] at h
      · simp only [hmi, if_false] at h
        rcases List.mem_cons.mp he with he1 | he1
        · subst he1
          rcases pyRfind_eq_some t e i hfind with ⟨_, hmax⟩
          have := hmax j hocc (hes e (by simp))
          omega
        · exact ih (fun x hx => hes x (by simp [hx])) h e he1 j hj hocc

theorem findEnding_eq_some (t : List Char) (m : Nat) :
    ∀ (es : List (List Char)) (k : Nat), (∀ e ∈ es, e ≠ []) →
      findEnding t m es = some k →
      ∃ pre e post, es = pre ++ e :: post ∧ OccAt e t k ∧ m / 2 < k ∧
        (∀ j, OccAt e t j → j ≤ k) ∧
        (∀ e2 ∈ pre, ∀ j, m / 2 < j → ¬ OccAt e2 t j) := by
  intro es
  induction es with
  | nil =>
    intro k _ h
    cases h
  | cons e0 tl ih =>
    intro k hes h
    unfold findEnding at h
    rcases hfind : pyRfind t e0 with _ | i <;> rw [hfind] at h
    · rcases ih k (fun x hx => hes x (by simp [hx])) h with
        ⟨pre, e, post, heq, h1, h2, h3, h4⟩
      refine ⟨e0 :: pre, e, post, by simp [heq], h1, h2, h3, ?_⟩
      intro e2 he2 j hj
      rcases List.mem_cons.mp he2 with he3 | he3
      · subst he3
        exact pyRfind_eq_none t e2 (hes e2 (by simp)) hfind j
      · exact h4 e2 he3 j hj
    · by_cases hmi : m / 2 < i
      · simp only [hmi, if_true] at h
        cases h
        rcases pyRfind_eq_some t e0 k hfind with ⟨h1, h2⟩
        refine ⟨[], e0, tl, by simp, h1, hmi, ?_, by simp⟩
        intro j hj
        exact h2 j hj (hes e0 (by simp))
      · simp only [hmi, if_false] at h
        rcases ih k (fun x hx => hes x (by simp [hx])) h with
          ⟨pre, e, post, heq, h1, h2, h3, h4⟩
        refine ⟨e0 :: pre, e, post, by simp [heq], h1, h2, h3, ?_⟩
        intro e2 he2 j hj hocc
        rcases List.mem_cons.mp he2 with he3 | he3
        · subst he3
          rcases pyRfind_eq_some t e2 i hfind with ⟨_, hmax⟩
          have := hmax j hocc (hes e2 (by simp))
          omega
        · exact h4 e2 he3 j hj hocc

theorem sentence_endings_ne_nil : ∀ e ∈ sentence_endings, e ≠ [] := by
  decide

/-- C8 amended: when the text is longer than `max_chars`, the code cuts at
the latest occurrence of the FIRST terminator - in the fixed loop order
`". "`, `"! "`, `"? "`, `".\n"`, `"!\n"`, `"?\n"` - whose latest occurrence
in the `max_chars` prefix lies past `max_chars / 2` (keeping text through
the terminator's punctuation character, stripped); failing that it cuts at
the latest space past `max_chars / 2` (stripped) and appends `"..."`;
failing that it returns the stripped `max_chars` prefix with `"..."`
appended (an ellipsis is appended in the hard-cut case too). -/
theorem truncate_at_sentence_behavior (text : List Char) (m : Nat) :
    (text.length ≤ m ∧ truncate_at_sentence text m = text) ∨
    (m < text.length ∧
      ((∃ pre e post, sentence_endings = pre ++ e :: post ∧ ∃ i,
          OccAt e (text.take m) i ∧ m / 2 < i ∧
          (∀ j, OccAt e (text.take m) j → j ≤ i) ∧
          (∀ e2 ∈ pre, ∀ j, m / 2 < j → ¬ OccAt e2 (text.take m) j) ∧
          truncate_at_sentence text m = pyStrip ((text.take m).take (i + 1))) ∨
       ((∀ e ∈ sentence_endings, ∀ j, m / 2 < j → ¬ OccAt e (text.take m) j) ∧
        ((∃ i, OccAt [' '] (text.take m) i ∧ m / 2 < i ∧
            (∀ j, OccAt [' '] (text.take m) j → j ≤ i) ∧
            truncate_at_sentence text m =
              pyStrip ((text.take m).take i) ++ ellipsis) ∨
         ((∀ j, m / 2 < j → ¬ OccAt [' '] (text.take m) j) ∧
          truncate_at_sentence text m = pyStrip (text.take m) ++ ellipsis))))) := by
  by_cases hlen : text.length ≤ m
  · left
    exact ⟨hlen, by unfold truncate_at_sentence; simp [hlen]⟩
  · right
    refine ⟨by omega, ?_⟩
    rcases hfe : findEnding (text.take m) m sentence_endings with _ | k
    · right
      refine ⟨findEnding_eq_none _ _ _ sentence_endings_ne_nil hfe, ?_⟩
      rcases hsp : pyRfind (text.take m) [' '] with _ | j
      · right
        refine ⟨?_, ?_⟩
        · intro j _
          exact pyRfind_eq_none _ _ (by simp) hsp j
        · unfold truncate_at_sentence
          simp only [hlen, if_false]
          rw [hfe, hsp]
      · rcases pyRfind_eq_some _ _ j hsp with ⟨h1, h2⟩
        by_cases hj : m / 2 < j
        · left
          refine ⟨j, h1, hj, ?_, ?_⟩
          · intro j2 hj2
            exact h2 j2 hj2 (by simp)
          · unfold truncate_at_sentence
            simp only [hlen, if_false]
            rw [hfe, hsp]
            simp [hj]
        · right
          refine ⟨?_, ?_⟩
          · intro j2 hj2 hocc
            have := h2 j2 hocc (by simp)
            omega
          · unfold truncate_at_sentence
            simp only [hlen, if_false]
            rw [hfe, hsp]
            simp [hj]
    · left
      rcases findEnding_eq_some _ _ _ k sentence_endings_ne_nil hfe with
        ⟨pre, e, post, heq, h1, h2, h3, h4⟩
      refine ⟨pre, e, post, heq, k, h1, h2, h3, h4, ?_⟩
      unfold truncate_at_sentence
      simp only [hlen, if_false]
      rw [hfe]

/-! ## `store` filter DSL → SQL (claim C9) -/

/-- The single-quote character `'` (written via its code point so that SQL
fragments below can be spelled without literal apostrophes). -/
def quoteChar : Char := Char.ofNat 39

/-- A one-character string holding a single quote. -/
def sqS : String := ⟨[quoteChar]⟩

/-- `v.replace(chr(39), chr(39) + chr(39))`: double every single quote. -/
def escQuoteChars : List Char → List Char
  | [] => []
  | c :: cs =>
    if c = quoteChar then c :: c :: escQuoteChars cs else c :: escQuoteChars cs

def pyReplaceQuote (v : String) : String := ⟨escQuoteChars v.data⟩

/-- Number of single-quote characters in a string. -/
def countQuote (s : String) : Nat := s.data.countP (· = quoteChar)

/-- `store._format_sql_in_clause(values)`: quote each value with embedded
quotes doubled, join with `", "`, wrap in parentheses; empty list gives
`"()"`. -/
def _format_sql_in_clause (values : List String) : String :=
  if values = [] then "()"
  else
    "(" ++ String.intercalate ", "
      (values.map (fun v => sqS ++ pyReplaceQuote v ++ sqS)) ++ ")"

/-- Wrap in single quotes with NO escaping - the f-string `f"'{v}'"` used
throughout the filter DSL. -/
def quoteRaw (s : String) : String := sqS ++ s ++ sqS

/-- A filter operand (`Any` in Python: the observed runtime kinds). -/
inductive Operand where
  | str (s : String)
  | num (n : Int)
  | lst (vs : List String)
deriving DecidableEq

/-- Python f-string rendering of an operand that is not specially cased
(`f"{operand}"`; list repr quotes its elements). -/
def pyStrOfOperand : Operand → String
  | .str s => s
  | .num n => toString n
  | .lst vs => "[" ++ String.intercalate ", " (vs.map quoteRaw) ++ "]"

/-- `store.LanceDBStore._build_operator_clause(field, op, operand)`. String
operands are interpolated with `f"'{operand}'"` - no quote doubling -
and `$in`/`$nin` elements with `f"'{v}'"` likewise. Unknown operators give
`None`. -/
def _build_operator_clause (field op : String) (operand : Operand) :
    Option String :=
  if op = "$in" then
    match operand with
    | .lst vs =>
      if vs ≠ [] then
        some (field ++ " IN (" ++
          String.intercalate ", " (vs.map quoteRaw) ++ ")")
      else none
    | _ => none
  else if op = "$nin" then
    match operand with
    | .lst vs =>
      if vs ≠ [] then
        some (field ++ " NOT IN (" ++
          String.intercalate ", " (vs.map quoteRaw) ++ ")")
      else none
    | _ => none
  else if op = "$ne" then
    match operand with
    | .str s => some (field ++ " != " ++ quoteRaw s)
    | o => some (field ++ " != " ++ pyStrOfOperand o)
  else if op = "$gte" then
    match operand with
    | .str s => some (field ++ " >= " ++ quoteRaw s)
    | o => some (field ++ " >= " ++ pyStrOfOperand o)
  else if op = "$lte" then
    match operand with
    | .str s => some (field ++ " <= " ++ quoteRaw s)
    | o => some (field ++ " <= " ++ pyStrOfOperand o)
  else if op = "$gt" then
    match operand with
    | .str s => some (field ++ " > " ++ quoteRaw s)
    | o => some (field ++ " > " ++ pyStrOfOperand o)
  else if op = "$lt" then
    match operand with
    | .str s => some (field ++ " < " ++ quoteRaw s)
    | o => some (field ++ " < " ++ pyStrOfOperand o)
  else
    none

/-- A filter value: a scalar or an operator object (Python dict, in
insertion order). -/
inductive FilterValue where
  | str (s : String)
  | boolean (b : Bool)
  | num (n : Int)
  | ops (cs : List (String × Operand))
deriving DecidableEq

/-- The clauses contributed by one `field: value` filter entry (simple
equality for scalars - `f"{field} = '{value}'"`, unescaped - or one clause
per operator). -/
def clausesForField (field : String) : FilterValue → List String
  | .ops cs => cs.filterMap (fun c => _build_operator_clause field c.1 c.2)
  | .str s => [field ++ " = " ++ quoteRaw s]
  | .boolean b => [field ++ " = " ++ (if b then "true" else "false")]
  | .num n => [field ++ " = " ++ toString n]

/-- `store.LanceDBStore._build_where_clause(filters)`: all clauses joined
with `" AND "`. -/
def _build_where_clause (filters : List (String × FilterValue)) : String :=
  String.intercalate " AND "
    (List.flatten (filters.map (fun fv => clausesForField fv.1 fv.2)))

/-- C9 counterexample: the value `O'Brien` under simple equality is emitted
as `assignee = 'O'Brien'` - the embedded quote is NOT doubled, contrary to
the claim that every string value in the DSL appears as `'O''Brien'`. -/
theorem where_clause_quote_not_doubled :
    _build_where_clause [("assignee", FilterValue.str ("O" ++ sqS ++ "Brien"))] ≠
        "assignee = " ++ sqS ++ "O" ++ sqS ++ sqS ++ "Brien" ++ sqS ∧
    _build_where_clause [("assignee", FilterValue.str ("O" ++ sqS ++ "Brien"))] =
        "assignee = " ++ sqS ++ "O" ++ sqS ++ "Brien" ++ sqS := by
  refine ⟨by decide, by decide⟩

theorem countP_escQuoteChars (l : List Char) :
    (escQuoteChars l).countP (· = quoteChar) = 2 * l.countP (· = quoteChar) := by
  induction l with
  | nil => simp [escQuoteChars]
  | cons c cs ih =>
    unfold escQuoteChars
    by_cases hc : c = quoteChar
    · simp only [hc, if_true]
      rw [List.countP_cons, List.countP_cons, List.countP_cons, ih]
      simp
      omega
    · simp only [hc, if_false]
      rw [List.countP_cons, List.countP_cons, ih]
      simp [hc]

theorem countQuote_append (a b : String) :
    countQuote (a ++ b) = countQuote a + countQuote b := by
  unfold countQuote
  rw [String.data_append, List.countP_append]

/-- C9 amended: string values in the filter DSL (`_build_where_clause` /
`_build_operator_clause`) are emitted single-quoted WITHOUT doubling
embedded quotes - equality, `$ne` and `$in` interpolate the value verbatim,
so `O'Brien` yields `'O'Brien'` (quote count `countQuote v + 2`).
Quote-doubling happens only in `_format_sql_in_clause`, which serves the
ID-list IN clauses of the upsert/delete paths and yields `'O''Brien'`
(quote count `2 * countQuote v + 2`). -/
theorem intercalate_singleton (sep x : String) :
    String.intercalate sep [x] = x := by
  simp [String.intercalate, String.intercalate.go]

theorem filter_dsl_quoting (field v : String) (hf : countQuote field = 0) :
    _build_where_clause [(field, FilterValue.str v)] =
        field ++ " = " ++ sqS ++ v ++ sqS ∧
    countQuote (_build_where_clause [(field, FilterValue.str v)]) =
        countQuote v + 2 ∧
    _build_operator_clause field "$ne" (Operand.str v) =
        some (field ++ " != " ++ sqS ++ v ++ sqS) ∧
    _build_operator_clause field "$in" (Operand.lst [v]) =
        some (field ++ " IN (" ++ sqS ++ v ++ sqS ++ ")") ∧
    _format_sql_in_clause [v] = "(" ++ sqS ++ pyReplaceQuote v ++ sqS ++ ")" ∧
    countQuote (_format_sql_in_clause [v]) = 2 * countQuote v + 2 := by
  have hin : _format_sql_in_clause [v] =
      "(" ++ (sqS ++ pyReplaceQuote v ++ sqS) ++ ")" := by
    unfold _format_sql_in_clause
    simp [intercalate_singleton]
  have hwc : _build_where_clause [(field, FilterValue.str v)] =
      (field ++ " = " ++ sqS) ++ v ++ sqS := by
    unfold _build_where_clause clausesForField quoteRaw
    simp [intercalate_singleton, String.append_assoc]
  refine ⟨?_, ?_, ?_, ?_, ?_, ?_⟩
  · exact hwc
  · rw [hwc, countQuote_append, countQuote_append, countQuote_append,
      countQuote_append, hf]
    have h1 : countQuote sqS = 1 := by decide
    have h2 : countQuote " = " = 0 := by decide
    rw [h1, h2]
    omega
  · unfold _build_operator_clause
    simp [quoteRaw, String.append_assoc]
  · unfold _build_operator_clause
    simp [quoteRaw, intercalate_singleton, String.append_assoc]
  · rw [hin]
    simp [String.append_assoc]
  · rw [hin, countQuote_append, countQuote_append, countQuote_append,
      countQuote_append]
    have h1 : countQuote sqS = 1 := by decide
    have h2 : countQuote "(" = 0 := by decide
    have h3 : countQuote ")" = 0 := by decide
    have h4 : countQuote (pyReplaceQuote v) = 2 * countQuote v := by
      unfold pyReplaceQuote countQuote
      exact countP_escQuoteChars v.data
    rw [h1, h2, h3, h4]
    omega

/-- C9 witness: the amended statement applied at `field = "assignee"`,
`v = "O'Brien"`. -/
theorem filter_dsl_quoting_witness :
    countQuote "assignee" = 0 ∧
    _build_where_clause [("assignee", FilterValue.str ("O" ++ sqS ++ "Brien"))] =
      "assignee" ++ " = " ++ sqS ++ ("O" ++ sqS ++ "Brien") ++ sqS :=
  ⟨by decide,
    (filter_dsl_quoting "assignee" ("O" ++ sqS ++ "Brien") (by decide)).1⟩

/-! ## Python dict as an insertion-ordered association list -/

/-- `d[k] = v` on a Python dict: replace in place if the key exists
(keeping its position), else append. -/
def pyDictUpd {β : Type} (d : List (String × β)) (k : String) (v : β) :
    List (String × β) :=
  if d.any (fun e => e.1 = k) then
    d.map (fun e => if e.1 = k then (k, v) else e)
  else d ++ [(k, v)]

/-- Build a dict from a list of key/value assignments, in order (later
assignments to the same key overwrite, first position wins). -/
def pyDictOfList {β : Type} (l : List (String × β)) : List (String × β) :=
  l.foldl (fun acc kv => pyDictUpd acc kv.1 kv.2) []

theorem pyDictUpd_pred {β : Type} (P : String × β → Prop)
    (d : List (String × β)) (k : String) (v : β)
    (hd : ∀ e ∈ d, P e) (hkv : P (k, v)) :
    ∀ e ∈ pyDictUpd d k v, P e := by
  intro e he
  unfold pyDictUpd at he
  by_cases hany : (d.any (fun e => e.1 = k)) = true
  · rw [if_pos hany] at he
    rcases List.mem_map.mp he with ⟨e0, he0, heq⟩
    by_cases hk : e0.1 = k
    · simp only [hk, if_true] at heq
      rw [← heq]
      exact hkv
    · simp only [hk, if_false] at heq
      rw [← heq]
      exact hd e0 he0
  · rw [if_neg hany] at he
    rcases List.mem_append.mp he with he1 | he1
    · exact hd e he1
    · rcases List.mem_singleton.mp he1 with rfl
      exact hkv

theorem pyDictOfList_pred {β : Type} (P : String × β → Prop)
    (l : List (String × β)) (hl : ∀ e ∈ l, P e) :
    ∀ e ∈ pyDictOfList l, P e := by
  unfold pyDictOfList
  suffices h : ∀ (l2 acc : List (String × β)), (∀ e ∈ acc, P e) →
      (∀ e ∈ l2, P e) →
      ∀ e ∈ List.foldl (fun acc kv => pyDictUpd acc kv.1 kv.2) acc l2, P e by
    exact h l [] (by simp) hl
  intro l2
  induction l2 with
  | nil =>
    intro acc hacc _ e he
    exact hacc e he
  | cons kv tl ih =>
    intro acc hacc hmem e he
    refine ih (pyDictUpd acc kv.1 kv.2) ?_ (fun x hx => hmem x (by simp [hx])) e he
    exact pyDictUpd_pred P acc kv.1 kv.2 hacc (hmem kv (by simp))

theorem pyDictUpd_countP_le {β : Type} (d : List (String × β)) (k : String)
    (v : β) (k2 : String) (hle : d.countP (fun e => e.1 = k2) ≤ 1) :
    (pyDictUpd d k v).countP (fun e => e.1 = k2) ≤ 1 := by
  unfold pyDictUpd
  by_cases hany : (d.any (fun e => e.1 = k)) = true
  · rw [if_pos hany]
    rw [List.countP_map]
    calc d.countP ((fun e => decide (e.1 = k2)) ∘
          fun e => if e.1 = k then (k, v) else e) =
        d.countP (fun e => decide (e.1 = k2)) := by
          apply List.countP_congr
          intro e _
          by_cases hk : e.1 = k <;> simp [hk]
      _ ≤ 1 := hle
  · rw [if_neg hany]
    rw [List.countP_append]
    by_cases hk : k = k2
    · subst hk
      have h0 : d.countP (fun e => decide (e.1 = k)) = 0 := by
        rw [List.countP_eq_zero]
        intro e he hdec
        exact hany (List.any_eq_true.mpr ⟨e, he, hdec⟩)
      rw [h0]
      simp
    · have h1 : List.countP (fun e => decide (e.1 = k2)) [(k, v)] = 0 := by
        simp [hk]
      rw [h1]
      omega

theorem pyDictUpd_mem_keys {β : Type} (d : List (String × β)) (k : String)
    (v : β) (k2 : String) :
    (k2 ∈ (pyDictUpd d k v).map (fun e => e.1)) ↔
      (k2 ∈ d.map (fun e => e.1) ∨ k2 = k) := by
  unfold pyDictUpd
  by_cases hany : (d.any (fun e => e.1 = k)) = true
  · rw [if_pos hany]
    constructor
    · intro h
      rcases List.mem_map.mp h with ⟨e, he, heq⟩
      rcases List.mem_map.mp he with ⟨e0, he0, heq0⟩
      by_cases hk : e0.1 = k
      · right
        rw [← heq, ← heq0]
        simp [hk]
      · left
        rw [← heq, ← heq0]
        simp only [hk, if_false]
        exact List.mem_map.mpr ⟨e0, he0, rfl⟩
    · intro h
      rcases h with h | h
      · rcases List.mem_map.mp h with ⟨e0, he0, heq0⟩
        apply List.mem_map.mpr
        refine ⟨if e0.1 = k then (k, v) else e0, List.mem_map.mpr ⟨e0, he0, rfl⟩, ?_⟩
        by_cases hk : e0.1 = k
        · simp [hk, ← heq0]
        · simp [hk, ← heq0]
      · subst h
        simp only [List.any_eq_true, decide_eq_true_eq] at hany
        rcases hany with ⟨e0, he0, hek⟩
        apply List.mem_map.mpr
        refine ⟨if e0.1 = k2 then (k2, v) else e0, List.mem_map.mpr ⟨e0, he0, rfl⟩, ?_⟩
        simp [hek]
  · rw [if_neg hany]
    rw [List.map_append]
    simp [or_comm]

theorem pyDictOfList_countP_le {β : Type} (l : List (String × β))
    (k : String) : (pyDictOfList l).countP (fun e => e.1 = k) ≤ 1 := by
  unfold pyDictOfList
  suffices h : ∀ (l2 acc : List (String × β)),
      acc.countP (fun e => e.1 = k) ≤ 1 →
      (List.foldl (fun acc kv => pyDictUpd acc kv.1 kv.2) acc l2).countP
        (fun e => e.1 = k) ≤ 1 by
    exact h l [] (by simp)
  intro l2
  induction l2 with
  | nil =>
    intro acc hacc
    exact hacc
  | cons kv tl ih =>
    intro acc hacc
    exact ih (pyDictUpd acc kv.1 kv.2) (pyDictUpd_countP_le acc kv.1 kv.2 k hacc)

theorem pyDictOfList_mem_keys {β : Type} (l : List (String × β)) (k : String) :
    (k ∈ (pyDictOfList l).map (fun e => e.1)) ↔ k ∈ l.map (fun e => e.1) := by
  unfold pyDictOfList
  suffices h : ∀ (l2 acc : List (String × β)),
      (k ∈ (List.foldl (fun acc kv => pyDictUpd acc kv.1 kv.2) acc l2).map
          (fun e => e.1)) ↔
        (k ∈ acc.map (fun e => e.1) ∨ k ∈ l2.map (fun e => e.1)) by
    rw [h l []]
    simp
  intro l2
  induction l2 with
  | nil =>
    intro acc
    simp
  | cons kv tl ih =>
    intro acc
    rw [List.foldl_cons, ih (pyDictUpd acc kv.1 kv.2), pyDictUpd_mem_keys]
    simp only [List.map_cons, List.mem_cons]
    tauto

/-! ## `store.bulk_insert_issues` / `store.upsert_issues` (claim C6) -/

/-- A row of the `jira_issues` table. `payload` stands for all remaining
columns (vector, summary, metadata, content hash, ...); only `issue_id`
participates in existence checks and deletes. -/
structure JiraIssueEmbedding where
  issue_id : String
  payload : Nat
deriving DecidableEq

/-- `store.LanceDBStore.bulk_insert_issues(issues)`: dedupe by `issue_id`
within the batch via a Python dict (`seen_ids[issue.issue_id] = issue`,
first position, last value wins), then append to the table. Returns the new
table and the count. -/
def bulk_insert_issues (tbl issues : List JiraIssueEmbedding) :
    List JiraIssueEmbedding × Nat :=
  if issues = [] then (tbl, 0)
  else
    let unique :=
      (pyDictOfList (issues.map (fun i => (i.issue_id, i)))).map (fun e => e.2)
    (tbl ++ unique, unique.length)

/-- `store.LanceDBStore.upsert_issues(issues)`: split the batch into
`updates` (key already in the store) and `inserts` (new key), delete the
rows with updated keys, then add `updates ++ inserts` - with NO within-batch
dedup. The existence query `_get_existing_issue_ids` is modelled as a direct
scan of the table for the queried ids (its `.limit(len(issue_ids))` can
truncate only when the table already holds duplicate rows). -/
def upsert_issues (tbl issues : List JiraIssueEmbedding) :
    List JiraIssueEmbedding × Nat :=
  if issues = [] then (tbl, 0)
  else
    let existing := (issues.map (fun i => i.issue_id)).filter
      (fun id => tbl.any (fun r => r.issue_id = id))
    let updates := issues.filter (fun r => existing.any (fun id => id = r.issue_id))
    let inserts := issues.filter
      (fun r => ¬ existing.any (fun id => id = r.issue_id))
    let tbl1 :=
      if updates ≠ [] then
        tbl.filter (fun r => ¬ updates.any (fun u => u.issue_id = r.issue_id))
      else tbl
    (tbl1 ++ (updates ++ inserts), (updates ++ inserts).length)

/-- C6 counterexample: one `upsert_issues` call with two records sharing
`issue_id = "K"` on an empty store leaves TWO rows with that key - there is
no within-batch dedup in `upsert_issues`. -/
theorem upsert_issues_duplicate_rows :
    ((upsert_issues [] [⟨"K", 1⟩, ⟨"K", 2⟩]).1.countP
        (fun r => r.issue_id = "K")) = 2 ∧
    (upsert_issues [] [⟨"K", 1⟩, ⟨"K", 2⟩]).1 = [⟨"K", 1⟩, ⟨"K", 2⟩] := by
  refine ⟨by decide, by decide⟩

/-- C6 amended: `upsert_issues` partitions the batch by existence
(delete-then-add for keys already in the store, plain append for new keys)
but performs NO within-batch dedup - a key occurring n times in the batch
ends up with exactly n rows, whether or not it already existed. Only
`bulk_insert_issues` dedupes within the batch (last occurrence wins), so on
a cleared table it leaves exactly one row per batch key. -/
theorem upsert_no_dedup_bulk_dedup :
    (∀ (tbl issues : List JiraIssueEmbedding) (k : String),
        k ∈ issues.map (fun i => i.issue_id) →
        ((upsert_issues tbl issues).1.countP (fun r => r.issue_id = k)) =
          issues.countP (fun r => r.issue_id = k)) ∧
    (∀ (issues : List JiraIssueEmbedding) (k : String),
        k ∈ issues.map (fun i => i.issue_id) →
        ((bulk_insert_issues [] issues).1.countP (fun r => r.issue_id = k)) = 1) := by
  constructor
  · intro tbl issues k hk
    have hne : issues ≠ [] := by
      rintro rfl
      simp at hk
    rcases List.mem_map.mp hk with ⟨i0, hi0, hi0k⟩
    simp only [upsert_issues, hne, if_false]
    rw [List.countP_append, List.countP_append]
    by_cases hex : (tbl.any (fun r => r.issue_id = k)) = true
    · have hexk : (((issues.map (fun i => i.issue_id)).filter
          (fun id => tbl.any (fun r => r.issue_id = id))).any
            (fun id => id = k)) = true := by
        apply List.any_eq_true.mpr
        refine ⟨k, List.mem_filter.mpr ⟨hk, by simpa using hex⟩, by simp⟩
      have hupd : (issues.filter (fun r =>
          ((issues.map (fun i => i.issue_id)).filter
            (fun id => tbl.any (fun r => r.issue_id = id))).any
              (fun id => id = r.issue_id))).countP (fun r => r.issue_id = k) =
          issues.countP (fun r => r.issue_id = k) := by
        rw [List.countP_filter]
        apply List.countP_congr
        intro r _
        by_cases hr : r.issue_id = k
        · rw [hr]
          simp [hexk]
        · simp [hr]
      have hins : (issues.filter (fun r =>
          ¬ ((issues.map (fun i => i.issue_id)).filter
            (fun id => tbl.any (fun r => r.issue_id = id))).any
              (fun id => id = r.issue_id))).countP (fun r => r.issue_id = k) = 0 := by
        rw [List.countP_eq_zero]
        intro r hr hdec
        have hrk : r.issue_id = k := by simpa using hdec
        have := (List.mem_filter.mp hr).2
        rw [hrk] at this
        simp [hexk] at this
      have hmemupd : i0 ∈ issues.filter (fun r =>
          ((issues.map (fun i => i.issue_id)).filter
            (fun id => tbl.any (fun r => r.issue_id = id))).any
              (fun id => id = r.issue_id)) := by
        apply List.mem_filter.mpr
        refine ⟨hi0, ?_⟩
        rw [hi0k]
        simpa using hexk
      have hupdne : issues.filter (fun r =>
          ((issues.map (fun i => i.issue_id)).filter
            (fun id => tbl.any (fun r => r.issue_id = id))).any
              (fun id => id = r.issue_id)) ≠ [] :=
        List.ne_nil_of_mem hmemupd
      rw [if_pos hupdne]
      have htbl1 : (tbl.filter (fun r => ¬ (issues.filter (fun r =>
          ((issues.map (fun i => i.issue_id)).filter
            (fun id => tbl.any (fun r => r.issue_id = id))).any
              (fun id => id = r.issue_id))).any
                (fun u => u.issue_id = r.issue_id))).countP
            (fun r => r.issue_id = k) = 0 := by
        rw [List.countP_eq_zero]
        intro r hr hdec
        have hrk : r.issue_id = k := by simpa using hdec
        have hcond := (List.mem_filter.mp hr).2
        simp only [decide_eq_true_eq] at hcond
        apply hcond
        apply List.any_eq_true.mpr
        refine ⟨i0, hmemupd, by simp [hi0k, hrk]⟩
      rw [htbl1, hupd, hins]
      omega
    · have hexk : (((issues.map (fun i => i.issue_id)).filter
          (fun id => tbl.any (fun r => r.issue_id = id))).any
            (fun id => id = k)) = false := by
        apply List.any_eq_false.mpr
        intro id hid
        rcases List.mem_filter.mp hid with ⟨_, hidt⟩
        simp only [decide_eq_true_eq]
        intro hidk
        rw [hidk] at hidt
        exact hex hidt
      have hupd : (issues.filter (fun r =>
          ((issues.map (fun i => i.issue_id)).filter
            (fun id => tbl.any (fun r => r.issue_id = id))).any
              (fun id => id = r.issue_id))).countP (fun r => r.issue_id = k) = 0 := by
        rw [List.countP_eq_zero]
        intro r hr hdec
        have hrk : r.issue_id = k := by simpa using hdec
        have := (List.mem_filter.mp hr).2
        rw [hrk] at this
        simp [hexk] at this
      have hins : (issues.filter (fun r =>
          ¬ ((issues.map (fun i => i.issue_id)).filter
            (fun id => tbl.any (fun r => r.issue_id = id))).any
              (fun id => id = r.issue_id))).countP (fun r => r.issue_id = k) =
          issues.countP (fun r => r.issue_id = k) := by
        rw [List.countP_filter]
        apply List.countP_congr
        intro r _
        by_cases hr : r.issue_id = k
        · rw [hr]
          simp [hexk]
        · simp [hr]
      have htblz : ∀ r ∈ tbl, ¬ (decide (r.issue_id = k) = true) := by
        intro r hr hdec
        exact hex (List.any_eq_true.mpr ⟨r, hr, hdec⟩)
      rw [hupd, hins]
      split
      · rw [List.countP_eq_zero.mpr (fun r hr => htblz r (List.mem_filter.mp hr).1)]
        omega
      · rw [List.countP_eq_zero.mpr htblz]
        omega
  · intro issues k hk
    have hne : issues ≠ [] := by
      rintro rfl
      simp at hk
    simp only [bulk_insert_issues]
    rw [if_neg hne]
    simp only [List.nil_append]
    rw [List.countP_map]
    have hpred : ∀ e ∈ pyDictOfList (issues.map (fun i => (i.issue_id, i))),
        e.1 = e.2.issue_id := by
      apply pyDictOfList_pred
      intro e he
      rcases List.mem_map.mp he with ⟨i, _, heq⟩
      rw [← heq]
    have hcong : (pyDictOfList (issues.map (fun i => (i.issue_id, i)))).countP
        ((fun r => decide (r.issue_id = k)) ∘ (fun e => e.2)) =
        (pyDictOfList (issues.map (fun i => (i.issue_id, i)))).countP
          (fun e => e.1 = k) := by
      apply List.countP_congr
      intro e he
      simp only [Function.comp]
      rw [hpred e he]
    rw [hcong]
    have hle := pyDictOfList_countP_le (issues.map (fun i => (i.issue_id, i))) k
    have hmem : k ∈ (pyDictOfList (issues.map (fun i => (i.issue_id, i)))).map
        (fun e => e.1) := by
      rw [pyDictOfList_mem_keys]
      simpa using hk
    rcases List.mem_map.mp hmem with ⟨e, he, hek⟩
    have hpos : 0 < (pyDictOfList (issues.map (fun i => (i.issue_id, i)))).countP
        (fun e => e.1 = k) := by
      apply List.countP_pos_iff.mpr
      exact ⟨e, he, by simp [hek]⟩
    omega

/-- C6 witness: the amended statement applied at a duplicated batch
(`upsert` keeps both rows, `bulk_insert` keeps one). -/
theorem upsert_no_dedup_bulk_dedup_witness :
    ((upsert_issues [] [⟨"K", 1⟩, ⟨"K", 2⟩]).1.countP
        (fun r => r.issue_id = "K")) =
      ([⟨"K", 1⟩, (⟨"K", 2⟩ : JiraIssueEmbedding)].countP
        (fun r => r.issue_id = "K")) ∧
    ((bulk_insert_issues [] [⟨"K", 1⟩, ⟨"K", 2⟩]).1.countP
        (fun r => r.issue_id = "K")) = 1 :=
  ⟨upsert_no_dedup_bulk_dedup.1 [] [⟨"K", 1⟩, ⟨"K", 2⟩] "K" (by decide),
   upsert_no_dedup_bulk_dedup.2 [⟨"K", 1⟩, ⟨"K", 2⟩] "K" (by decide)⟩

/-! ## `embeddings.PersistentEmbeddingCache` (claim C5)

The SQLite `embeddings` table becomes a list of `(content_hash,
last_accessed)` rows (the embedding payload and `created_at` play no role in
the claim); `time.time()` becomes a strictly increasing logical clock, so
`last_accessed` values are pairwise distinct. -/

/-- Ordering of cache rows by `last_accessed` (the `ORDER BY last_accessed
ASC` of the eviction query). -/
def entryTimeLe (a b : String × Nat) : Prop := a.2 ≤ b.2

instance : DecidableRel entryTimeLe := fun a b => Nat.decLe a.2 b.2

instance : IsTotal (String × Nat) entryTimeLe := ⟨fun a b => Nat.le_total a.2 b.2⟩

instance : IsTrans (String × Nat) entryTimeLe :=
  ⟨fun _ _ _ hab hbc => Nat.le_trans hab hbc⟩

/-- The `SELECT content_hash FROM embeddings ORDER BY last_accessed ASC
LIMIT to_delete` subquery, with `to_delete = int(max_entries * 0.1)`
modelled as `M / 10` (a stable sort models the unspecified tie order; ties
cannot occur under the distinct-clock model). -/
def cacheVictims (M : Nat) (s : List (String × Nat)) : List String :=
  ((s.insertionSort entryTimeLe).take (M / 10)).map (fun e => e.1)

/-- `PersistentEmbeddingCache._evict_if_needed`: when the row count exceeds
`max_entries`, delete the rows whose hash is among the oldest tenth by
`last_accessed`. -/
def _evict_if_needed (M : Nat) (s : List (String × Nat)) :
    List (String × Nat) :=
  if M < s.length then
    s.filter (fun e => ¬ (cacheVictims M s).any (fun h => h = e.1))
  else s

/-- `PersistentEmbeddingCache.set(h, embedding)`: `INSERT OR REPLACE`
(remove any row with the same hash, insert with `last_accessed = now`),
then `_evict_if_needed`. -/
def cacheSet (M : Nat) (s : List (String × Nat)) (h : String) (now : Nat) :
    List (String × Nat) :=
  _evict_if_needed M ((s.filter (fun e => ¬ e.1 = h)) ++ [(h, now)])

/-- A sequence of `set` calls against an initially empty cache, with the
logical clock ticking once per call. -/
def cacheRun (M : Nat) (hs : List String) : List (String × Nat) × Nat :=
  hs.foldl (fun st h => (cacheSet M st.1 h st.2, st.2 + 1)) ([], 0)

theorem countP_lt_length {α : Type} (p : α → Bool) (l : List α) (x : α)
    (hx : x ∈ l) (hpx : p x = false) : l.countP p < l.length := by
  induction l with
  | nil => cases hx
  | cons a rest ih =>
    rcases List.mem_cons.mp hx with rfl | hx2
    · rw [List.countP_cons]
      have h2 : rest.countP p ≤ rest.length := List.countP_le_length p
      simp only [hpx, List.length_cons]
      simp
      omega
    · rw [List.countP_cons]
      simp only [List.length_cons]
      have := ih hx2
      split <;> omega

theorem evict_length_le (M : Nat) (hM : 10 ≤ M) (s : List (String × Nat))
    (h : M < s.length) : (_evict_if_needed M s).length < s.length := by
  unfold _evict_if_needed
  rw [if_pos h]
  have hperm := List.perm_insertionSort entryTimeLe s
  have hlen : (s.insertionSort entryTimeLe).length = s.length := hperm.length_eq
  rcases hsorted : s.insertionSort entryTimeLe with _ | ⟨a, rest⟩
  · rw [hsorted] at hlen
    simp at hlen
    omega
  · rcases Nat.exists_eq_add_of_lt (show 0 < M / 10 by omega) with ⟨k, hk⟩
    have hatake : a ∈ (s.insertionSort entryTimeLe).take (M / 10) := by
      rw [hsorted, hk]
      simp [Nat.add_comm, List.take_succ_cons]
    have has : a ∈ s := by
      apply hperm.mem_iff.mp
      rw [hsorted]
      exact List.mem_cons_self a rest
    have hany : ((cacheVictims M s).any (fun h2 => h2 = a.1)) = true := by
      apply List.any_eq_true.mpr
      exact ⟨a.1, List.mem_map.mpr ⟨a, hatake, rfl⟩, by simp⟩
    rw [← List.countP_eq_length_filter]
    apply countP_lt_length _ s a has
    simp [hany]

theorem cacheSet_length_le (M : Nat) (hM : 10 ≤ M) (s : List (String × Nat))
    (hs : s.length ≤ M) (h : String) (now : Nat) :
    (cacheSet M s h now).length ≤ M := by
  unfold cacheSet
  have hle : ((s.filter (fun e => ¬ e.1 = h)) ++ [(h, now)]).length ≤
      s.length + 1 := by
    rw [List.length_append]
    have := List.length_filter_le (fun e => ¬ e.1 = h) s
    simp only [List.length_singleton]
    omega
  by_cases hlen : M < ((s.filter (fun e => ¬ e.1 = h)) ++ [(h, now)]).length
  · have := evict_length_le M hM _ hlen
    omega
  · unfold _evict_if_needed
    rw [if_neg hlen]
    omega

/-- Well-formedness of a cache state reached by `cacheRun`: distinct hashes
(`content_hash` is the primary key), distinct `last_accessed` stamps (the
strictly increasing clock), all stamps below the clock. -/
def CacheWF (s : List (String × Nat)) (clock : Nat) : Prop :=
  (s.map (fun e => e.1)).Nodup ∧ (s.map (fun e => e.2)).Nodup ∧
    ∀ e ∈ s, e.2 < clock

theorem evict_sublist (M : Nat) (s : List (String × Nat)) :
    List.Sublist (_evict_if_needed M s) s := by
  unfold _evict_if_needed
  split
  · exact List.filter_sublist s
  · exact List.Sublist.refl s

theorem cacheSet_wf (M : Nat) (s : List (String × Nat)) (h : String)
    (now : Nat) (hwf : CacheWF s now) : CacheWF (cacheSet M s h now) (now + 1) := by
  obtain ⟨hk, ht, hb⟩ := hwf
  have hfsub : List.Sublist (s.filter (fun e => ¬ e.1 = h)) s :=
    List.filter_sublist s
  have hk1 : (((s.filter (fun e => ¬ e.1 = h)) ++ [(h, now)]).map
      (fun e => e.1)).Nodup := by
    rw [List.map_append]
    apply List.nodup_append.mpr
    refine ⟨(hfsub.map (fun e => e.1)).nodup hk, by simp, ?_⟩
    intro a ha ha2
    simp only [List.map_cons, List.map_nil, List.mem_singleton] at ha2
    rcases List.mem_map.mp ha with ⟨e, he, heq⟩
    have := List.mem_filter.mp he
    rw [← heq] at ha2
    simp [ha2] at this
  have ht1 : (((s.filter (fun e => ¬ e.1 = h)) ++ [(h, now)]).map
      (fun e => e.2)).Nodup := by
    rw [List.map_append]
    apply List.nodup_append.mpr
    refine ⟨(hfsub.map (fun e => e.2)).nodup ht, by simp, ?_⟩
    intro a ha ha2
    simp only [List.map_cons, List.map_nil, List.mem_singleton] at ha2
    rcases List.mem_map.mp ha with ⟨e, he, heq⟩
    have hes : e ∈ s := hfsub.subset he
    have := hb e hes
    omega
  have hb1 : ∀ e ∈ (s.filter (fun e => ¬ e.1 = h)) ++ [(h, now)],
      e.2 < now + 1 := by
    intro e he
    rcases List.mem_append.mp he with he1 | he1
    · have := hb e (hfsub.subset he1)
      omega
    · rcases List.mem_singleton.mp he1 with rfl
      omega
  have hesub := evict_sublist M ((s.filter (fun e => ¬ e.1 = h)) ++ [(h, now)])
  exact ⟨(hesub.map (fun e => e.1)).nodup hk1,
    (hesub.map (fun e => e.2)).nodup ht1,
    fun e he => hb1 e (hesub.subset he)⟩

theorem cacheRun_wf_and_length (M : Nat) (hM : 10 ≤ M) (hs : List String) :
    (cacheRun M hs).1.length ≤ M ∧
      CacheWF (cacheRun M hs).1 (cacheRun M hs).2 := by
  unfold cacheRun
  suffices hgen : ∀ (l : List String) (st : List (String × Nat) × Nat),
      st.1.length ≤ M → CacheWF st.1 st.2 →
      (List.foldl (fun st h => (cacheSet M st.1 h st.2, st.2 + 1)) st l).1.length ≤ M ∧
        CacheWF (List.foldl (fun st h => (cacheSet M st.1 h st.2, st.2 + 1)) st l).1
          (List.foldl (fun st h => (cacheSet M st.1 h st.2, st.2 + 1)) st l).2 by
    exact hgen hs ([], 0) (by simp) ⟨by simp, by simp, by simp⟩
  intro l
  induction l with
  | nil =>
    intro st h1 h2
    exact ⟨h1, h2⟩
  | cons a tl ih =>
    intro st h1 h2
    exact ih (cacheSet M st.1 a st.2, st.2 + 1)
      (cacheSet_length_le M hM st.1 h1 a st.2)
      (cacheSet_wf M st.1 a st.2 h2)

theorem mem_take_sorted_iff (l : List (String × Nat))
    (hst : l.Sorted entryTimeLe) (ht : (l.map (fun e => e.2)).Nodup)
    (k : Nat) (e : String × Nat) (he : e ∈ l) :
    e ∈ l.take k ↔ l.countP (fun x => x.2 < e.2) < k := by
  induction l generalizing k with
  | nil => cases he
  | cons a rest ih =>
    rcases List.sorted_cons.mp hst with ⟨hall, hrest⟩
    rw [List.map_cons] at ht
    rcases List.nodup_cons.mp ht with ⟨hna, hnrest⟩
    cases k with
    | zero => simp
    | succ k2 =>
      rw [List.take_succ_cons]
      by_cases hea : e = a
      · subst hea
        have hcz : (e :: rest).countP (fun x => x.2 < e.2) = 0 := by
          rw [List.countP_eq_zero]
          intro x hx
          rcases List.mem_cons.mp hx with rfl | hx2
          · simp
          · have := hall x hx2
            unfold entryTimeLe at this
            simp only [decide_eq_true_eq]
            omega
        rw [hcz]
        simp
      · have he2 : e ∈ rest := by
          rcases List.mem_cons.mp he with rfl | h2
          · exact absurd rfl hea
          · exact h2
        have hane : a.2 ≠ e.2 := by
          intro heq
          exact hna (heq ▸ List.mem_map.mpr ⟨e, he2, rfl⟩)
        have halt : a.2 < e.2 := by
          have := hall e he2
          unfold entryTimeLe at this
          omega
        rw [List.countP_cons]
        simp only [decide_eq_true_eq]
        rw [if_pos halt]
        constructor
        · intro hmem
          rcases List.mem_cons.mp hmem with rfl | h2
          · exact absurd rfl hea
          · have := (ih hrest hnrest k2 he2).mp h2
            omega
        · intro hlt
          apply List.mem_cons_of_mem
          exact (ih hrest hnrest k2 he2).mpr (by omega)

theorem entry_eq_of_key_eq (s : List (String × Nat))
    (hk : (s.map (fun e => e.1)).Nodup) (x e : String × Nat)
    (hx : x ∈ s) (he : e ∈ s) (heq : x.1 = e.1) : x = e :=
  List.inj_on_of_nodup_map hk hx he heq

theorem evict_mem_iff (M : Nat) (s : List (String × Nat))
    (hk : (s.map (fun e => e.1)).Nodup)
    (ht : (s.map (fun e => e.2)).Nodup)
    (hlen : M < s.length) (e : String × Nat) (he : e ∈ s) :
    e ∈ _evict_if_needed M s ↔ M / 10 ≤ s.countP (fun x => x.2 < e.2) := by
  unfold _evict_if_needed
  rw [if_pos hlen]
  have hperm := List.perm_insertionSort entryTimeLe s
  have hsorted : (s.insertionSort entryTimeLe).Sorted entryTimeLe :=
    List.sorted_insertionSort entryTimeLe s
  have htS : ((s.insertionSort entryTimeLe).map (fun e => e.2)).Nodup :=
    ((hperm.map (fun e => e.2)).nodup_iff).mpr ht
  have heS : e ∈ s.insertionSort entryTimeLe := hperm.mem_iff.mpr he
  have hiff := mem_take_sorted_iff (s.insertionSort entryTimeLe) hsorted htS
    (M / 10) e heS
  have hcnt : (s.insertionSort entryTimeLe).countP (fun x => x.2 < e.2) =
      s.countP (fun x => x.2 < e.2) := hperm.countP_eq _
  rw [hcnt] at hiff
  constructor
  · intro hmem
    have hpred := (List.mem_filter.mp hmem).2
    simp only [decide_eq_true_eq] at hpred
    by_contra hcon
    apply hpred
    apply List.any_eq_true.mpr
    refine ⟨e.1, ?_, by simp⟩
    unfold cacheVictims
    apply List.mem_map.mpr
    exact ⟨e, hiff.mpr (by omega), rfl⟩
  · intro hge
    apply List.mem_filter.mpr
    refine ⟨he, ?_⟩
    simp only [decide_eq_true_eq]
    intro hanyv
    rcases List.any_eq_true.mp hanyv with ⟨h2, hh2, hh2e⟩
    simp only [decide_eq_true_eq] at hh2e
    unfold cacheVictims at hh2
    rcases List.mem_map.mp hh2 with ⟨x, hxtake, hxk⟩
    have hxS : x ∈ s := hperm.mem_iff.mp (List.mem_of_mem_take hxtake)
    have hxe : x = e := entry_eq_of_key_eq s hk x e hxS he (by rw [hxk, hh2e])
    subst hxe
    have := hiff.mp hxtake
    omega

theorem countP_time_split (s : List (String × Nat))
    (ht : (s.map (fun e => e.2)).Nodup) (e : String × Nat) (he : e ∈ s) :
    s.countP (fun x => x.2 < e.2) + s.countP (fun x => e.2 < x.2) + 1 =
      s.length := by
  have key : ∀ (l : List (String × Nat)), (∀ x ∈ l, x.2 ≠ e.2) →
      l.countP (fun x => x.2 < e.2) + l.countP (fun x => e.2 < x.2) =
        l.length := by
    intro l hl
    induction l with
    | nil => simp
    | cons b rb ih =>
      have hbne := hl b (by simp)
      rw [List.countP_cons, List.countP_cons, List.length_cons]
      have hr := ih (fun x hx => hl x (by simp [hx]))
      rcases Nat.lt_or_ge b.2 e.2 with hlt | hge
      · rw [if_pos (by simpa using hlt), if_neg (by simp; omega)]
        omega
      · have hgt : e.2 < b.2 := by omega
        rw [if_neg (by simp; omega), if_pos (by simpa using hgt)]
        omega
  induction s with
  | nil => cases he
  | cons a rest ih =>
    rw [List.map_cons] at ht
    rcases List.nodup_cons.mp ht with ⟨hna, hnrest⟩
    rcases List.mem_cons.mp he with rfl | he2
    · have hne : ∀ x ∈ rest, x.2 ≠ e.2 := by
        intro x hx heq
        exact hna (heq ▸ List.mem_map.mpr ⟨x, hx, rfl⟩)
      have := key rest hne
      rw [List.countP_cons, List.countP_cons, List.length_cons]
      simp only [Nat.lt_irrefl]
      simp
      omega
    · have hane : a.2 ≠ e.2 := by
        intro heq
        exact hna (heq ▸ List.mem_map.mpr ⟨e, he2, rfl⟩)
      have := ih hnrest he2
      rw [List.countP_cons, List.countP_cons, List.length_cons]
      rcases Nat.lt_or_ge a.2 e.2 with hlt | hge
      · rw [if_pos (by simpa using hlt), if_neg (by simp; omega)]
        omega
      · have hgt : e.2 < a.2 := by omega
        rw [if_neg (by simp; omega), if_pos (by simpa using hgt)]
        omega

/-- C5: for a cache with capacity `M ≥ 10`, (1) after any sequence of
`set()` calls the row count is at most `M` (and the reached state has
distinct hashes and stamps); (2) `_evict_if_needed` is the identity while
the count is at most `M`; (3) when the count exceeds `M`, an entry survives
eviction exactly when at least `M / 10` entries (the evicted tenth,
`int(M * 0.1)`) have strictly smaller `last_accessed`; (4) hence at the
overflow size `M + 1` every entry with fewer than `M - M / 10` (which is at
least `⌈0.9 M⌉`) strictly more recent entries survives - the `0.9 M`
most-recently-accessed entries always survive an eviction. -/
theorem cache_eviction_bound (M : Nat) (hM : 10 ≤ M) :
    (∀ hs : List String, (cacheRun M hs).1.length ≤ M ∧
      CacheWF (cacheRun M hs).1 (cacheRun M hs).2) ∧
    (∀ s : List (String × Nat), s.length ≤ M → _evict_if_needed M s = s) ∧
    (∀ s : List (String × Nat), (s.map (fun e => e.1)).Nodup →
      (s.map (fun e => e.2)).Nodup → M < s.length → ∀ e ∈ s,
      (e ∈ _evict_if_needed M s ↔ M / 10 ≤ s.countP (fun x => x.2 < e.2))) ∧
    (∀ s : List (String × Nat), (s.map (fun e => e.1)).Nodup →
      (s.map (fun e => e.2)).Nodup → s.length = M + 1 → ∀ e ∈ s,
      s.countP (fun x => e.2 < x.2) < M - M / 10 →
      e ∈ _evict_if_needed M s) := by
  refine ⟨fun hs => cacheRun_wf_and_length M hM hs, ?_, ?_, ?_⟩
  · intro s hsle
    unfold _evict_if_needed
    rw [if_neg (by omega)]
  · intro s hk ht hlen e he
    exact evict_mem_iff M s hk ht hlen e he
  · intro s hk ht hlen e he hrec
    have hsplit := countP_time_split s ht e he
    apply (evict_mem_iff M s hk ht (by omega) e he).mpr
    omega

/-- C5 witness: the bound applied at `M = 10` and a concrete 11-insert run,
plus the eviction identity and survival facts at concrete states. -/
theorem cache_eviction_bound_witness :
    (cacheRun 10 ["a", "b", "c", "d", "e", "f", "g", "h", "i", "j", "k"]).1.length ≤ 10 ∧
    _evict_if_needed 10 [("a", 0), ("b", 1)] = [("a", 0), ("b", 1)] ∧
    (("k", 10) ∈ _evict_if_needed 10
      [("a", 0), ("b", 1), ("c", 2), ("d", 3), ("e", 4), ("f", 5), ("g", 6),
       ("h", 7), ("i", 8), ("j", 9), ("k", 10)] ↔
      10 / 10 ≤ List.countP (fun x => x.2 < 10)
        [("a", 0), ("b", 1), ("c", 2), ("d", 3), ("e", 4), ("f", 5), ("g", 6),
         ("h", 7), ("i", 8), ("j", 9), (("k", 10) : String × Nat)]) :=
  ⟨(cache_eviction_bound 10 (by decide)).1
      ["a", "b", "c", "d", "e", "f", "g", "h", "i", "j", "k"] |>.1,
   (cache_eviction_bound 10 (by decide)).2.1 [("a", 0), ("b", 1)] (by decide),
   (cache_eviction_bound 10 (by decide)).2.2.1
      [("a", 0), ("b", 1), ("c", 2), ("d", 3), ("e", 4), ("f", 5), ("g", 6),
       ("h", 7), ("i", 8), ("j", 9), ("k", 10)]
      (by decide) (by decide) (by decide) ("k", 10) (by decide)⟩

/-! ## `sync.VectorSyncEngine._detect_and_remove_deleted_issues` (claim C2) -/

/-- Fuelled worker for `chunked` (fuel = list length suffices whenever the
chunk size is positive; Python raises for size 0). -/
def chunkedFuel {α : Type} : Nat → List α → Nat → List (List α)
  | 0, _, _ => []
  | _ + 1, [], _ => []
  | f + 1, a :: l, size =>
    (a :: l).take size :: chunkedFuel f ((a :: l).drop size) size

/-- `embeddings.chunked(iterable, size)`:
`[iterable[i : i + size] for i in range(0, len(iterable), size)]`. -/
def chunked {α : Type} (l : List α) (size : Nat) : List (List α) :=
  chunkedFuel l.length l size

theorem chunkedFuel_flatten {α : Type} (size : Nat) (hsz : 0 < size) :
    ∀ (f : Nat) (l : List α), l.length ≤ f → (chunkedFuel f l size).flatten = l := by
  intro f
  induction f with
  | zero =>
    intro l hl
    have : l = [] := List.eq_nil_of_length_eq_zero (by omega)
    subst this
    rfl
  | succ n ih =>
    intro l hl
    rcases l with _ | ⟨a, rest⟩
    · rfl
    · rw [chunkedFuel]
      rw [List.flatten_cons]
      rw [ih ((a :: rest).drop size) (by
        rw [List.length_drop]
        simp only [List.length_cons] at hl ⊢
        omega)]
      exact List.take_append_drop size (a :: rest)

theorem chunked_flatten {α : Type} (l : List α) (size : Nat) (hsz : 0 < size) :
    (chunked l size).flatten = l :=
  chunkedFuel_flatten size hsz l.length l (Nat.le_refl _)

/-- `sync.VectorSyncEngine._detect_and_remove_deleted_issues`: walk the
indexed ids in batches; for each batch, query the remote for
`key in (...)`; on success, ids of the batch missing from the response are
collected for deletion; on error, the batch is skipped. The Jira call is an
oracle `remote : batch ↦ response-or-error`; the returned list is what is
then passed to `delete_issues_by_ids`. -/
def _detect_and_remove_deleted_issues (indexed_ids : List String)
    (remote : List String → Except Unit (List String)) (batch_size : Nat) :
    List String :=
  (chunked indexed_ids batch_size).foldl
    (fun deleted batch =>
      match remote batch with
      | .ok existing_keys =>
        deleted ++ batch.filter (fun id => ¬ existing_keys.any (fun k2 => k2 = id))
      | .error _ => deleted) []

/-- `store.LanceDBStore.delete_issues_by_ids(ids)`: delete rows whose
`issue_id` is in the list, in SQL batches of 500; the reported count is the
sum of batch lengths. -/
def delete_issues_by_ids (tbl : List JiraIssueEmbedding)
    (issue_ids : List String) : List JiraIssueEmbedding × Nat :=
  if issue_ids = [] then (tbl, 0)
  else
    (chunked issue_ids 500).foldl
      (fun st batch =>
        (st.1.filter (fun r => ¬ batch.any (fun id => id = r.issue_id)),
          st.2 + batch.length))
      (tbl, 0)

theorem detect_foldl_mem (remote : List String → Except Unit (List String))
    (k : String) :
    ∀ (chunks : List (List String)) (acc : List String),
      (k ∈ chunks.foldl (fun deleted batch =>
          match remote batch with
          | .ok existing_keys =>
            deleted ++ batch.filter (fun id => ¬ existing_keys.any (fun k2 => k2 = id))
          | .error _ => deleted) acc) ↔
        (k ∈ acc ∨ ∃ b ∈ chunks, ∃ resp, remote b = Except.ok resp ∧
          k ∈ b ∧ k ∉ resp) := by
  intro chunks
  induction chunks with
  | nil =>
    intro acc
    simp
  | cons b0 rest ih =>
    intro acc
    rw [List.foldl_cons]
    rcases hrem : remote b0 with er | resp0
    · rw [ih acc]
      constructor
      · intro h
        rcases h with h | ⟨b, hb, resp, hr, hkb, hkr⟩
        · exact Or.inl h
        · exact Or.inr ⟨b, by simp [hb], resp, hr, hkb, hkr⟩
      · intro h
        rcases h with h | ⟨b, hb, resp, hr, hkb, hkr⟩
        · exact Or.inl h
        · rcases List.mem_cons.mp hb with rfl | hb2
          · rw [hrem] at hr
            cases hr
          · exact Or.inr ⟨b, hb2, resp, hr, hkb, hkr⟩
    · rw [ih _]
      constructor
      · intro h
        rcases h with h | ⟨b, hb, resp, hr, hkb, hkr⟩
        · rcases List.mem_append.mp h with h2 | h2
          · exact Or.inl h2
          · rcases List.mem_filter.mp h2 with ⟨hkb, hcond⟩
            refine Or.inr ⟨b0, by simp, resp0, hrem, hkb, ?_⟩
            simp only [decide_eq_true_eq] at hcond
            intro hkr
            exact hcond (List.any_eq_true.mpr ⟨k, hkr, by simp⟩)
        · exact Or.inr ⟨b, by simp [hb], resp, hr, hkb, hkr⟩
      · intro h
        rcases h with h | ⟨b, hb, resp, hr, hkb, hkr⟩
        · exact Or.inl (List.mem_append.mpr (Or.inl h))
        · rcases List.mem_cons.mp hb with rfl | hb2
          · rw [hrem] at hr
            cases hr
            refine Or.inl (List.mem_append.mpr (Or.inr ?_))
            apply List.mem_filter.mpr
            refine ⟨hkb, ?_⟩
            simp only [decide_eq_true_eq]
            intro hany
            rcases List.any_eq_true.mp hany with ⟨k2, hk2, hk2e⟩
            simp only [decide_eq_true_eq] at hk2e
            exact hkr (hk2e ▸ hk2)
          · exact Or.inr ⟨b, hb2, resp, hr, hkb, hkr⟩

theorem delete_foldl_filter :
    ∀ (chunks : List (List String)) (acc : List JiraIssueEmbedding × Nat),
      (chunks.foldl (fun st batch =>
          (st.1.filter (fun r => ¬ batch.any (fun id => id = r.issue_id)),
            st.2 + batch.length)) acc).1 =
        acc.1.filter (fun r => ¬ chunks.flatten.any (fun id => id = r.issue_id)) := by
  intro chunks
  induction chunks with
  | nil =>
    intro acc
    simp
  | cons b0 rest ih =>
    intro acc
    rw [List.foldl_cons, ih _]
    rw [List.filter_filter]
    rw [List.flatten_cons]
    apply List.filter_congr
    intro r _
    cases hb : (b0.any fun id => decide (id = r.issue_id)) <;>
      cases hr2 : (rest.flatten.any fun id => decide (id = r.issue_id)) <;>
        simp [hb, hr2]

/-- C2: in deletion detection, an indexed key is collected for deletion
precisely when its batch's remote existence query succeeded and the
response did not contain it; when the remote query for a batch errors, no
key of that batch is deleted; and the subsequent id-based delete removes
from the table exactly the rows whose `issue_id` was collected. -/
theorem deletion_detection_spec (ids : List String)
    (remote : List String → Except Unit (List String)) (bs : Nat)
    (hbs : 0 < bs) (hnd : ids.Nodup) :
    (∀ k, k ∈ _detect_and_remove_deleted_issues ids remote bs ↔
      ∃ b ∈ chunked ids bs, ∃ resp, remote b = Except.ok resp ∧ k ∈ b ∧
        k ∉ resp) ∧
    (∀ b ∈ chunked ids bs, ∀ er, remote b = Except.error er →
      ∀ k ∈ b, k ∉ _detect_and_remove_deleted_issues ids remote bs) ∧
    (∀ tbl : List JiraIssueEmbedding, ∀ r,
      (r ∈ (delete_issues_by_ids tbl
          (_detect_and_remove_deleted_issues ids remote bs)).1 ↔
        (r ∈ tbl ∧
          r.issue_id ∉ _detect_and_remove_deleted_issues ids remote bs))) := by
  have hmem : ∀ k, k ∈ _detect_and_remove_deleted_issues ids remote bs ↔
      ∃ b ∈ chunked ids bs, ∃ resp, remote b = Except.ok resp ∧ k ∈ b ∧
        k ∉ resp := by
    intro k
    unfold _detect_and_remove_deleted_issues
    rw [detect_foldl_mem remote k (chunked ids bs) []]
    simp
  refine ⟨hmem, ?_, ?_⟩
  · intro b hb er hrem k hkb hdel
    rcases (hmem k).mp hdel with ⟨b2, hb2, resp, hr2, hkb2, hkr2⟩
    have hflat : (chunked ids bs).flatten.Nodup := by
      rw [chunked_flatten ids bs hbs]
      exact hnd
    rcases List.nodup_flatten.mp hflat with ⟨_, hpw⟩
    by_cases hbe : b = b2
    · subst hbe
      rw [hrem] at hr2
      cases hr2
    · have hdisj := (List.Pairwise.forall (R := List.Disjoint)
        (fun _ _ h => h.symm) hpw) hb hb2 hbe
      exact hdisj hkb hkb2
  · intro tbl r
    unfold delete_issues_by_ids
    by_cases hdel : _detect_and_remove_deleted_issues ids remote bs = []
    · rw [if_pos hdel]
      rw [hdel]
      simp
    · rw [if_neg hdel]
      rw [delete_foldl_filter (chunked _ 500) (tbl, 0)]
      rw [List.mem_filter]
      rw [chunked_flatten _ 500 (by omega)]
      constructor
      · intro ⟨h1, h2⟩
        refine ⟨h1, ?_⟩
        simp only [decide_eq_true_eq] at h2
        intro hin
        exact h2 (List.any_eq_true.mpr ⟨r.issue_id, hin, by simp⟩)
      · intro ⟨h1, h2⟩
        refine ⟨h1, ?_⟩
        simp only [decide_eq_true_eq]
        intro hany
        rcases List.any_eq_true.mp hany with ⟨id, hid, hide⟩
        simp only [decide_eq_true_eq] at hide
        exact h2 (hide ▸ hid)

/-- C2 witness: two indexed keys in one-element batches; the remote says
`"A"` no longer exists and errors on `"B"`'s batch - only `"A"` is deleted,
and the delete removes exactly `"A"`'s row. -/
theorem deletion_detection_spec_witness :
    ("A" ∈ _detect_and_remove_deleted_issues ["A", "B"]
        (fun b => if b = ["A"] then Except.ok [] else Except.error ()) 1 ↔
      ∃ b ∈ chunked ["A", "B"] 1, ∃ resp,
        (if b = ["A"] then Except.ok [] else Except.error ()) =
          Except.ok resp ∧ "A" ∈ b ∧ "A" ∉ resp) ∧
    ("B" ∉ _detect_and_remove_deleted_issues ["A", "B"]
        (fun b => if b = ["A"] then Except.ok [] else Except.error ()) 1) :=
  ⟨(deletion_detection_spec ["A", "B"]
      (fun b => if b = ["A"] then Except.ok [] else Except.error ()) 1
      (by decide) (by decide)).1 "A",
   (deletion_detection_spec ["A", "B"]
      (fun b => if b = ["A"] then Except.ok [] else Except.error ()) 1
      (by decide) (by decide)).2.1 ["B"] (by decide) () rfl "B"
      (by decide)⟩

/-! ## `store.search_issues` / `store.hybrid_search` (claim C3)

A table row carries its cosine distance to the (fixed) query vector; the
LanceDB KNN search is modelled exactly as "the `n` rows of smallest
distance" (stable order on ties), with the `prefilter=True` where-clause as
a row predicate. Python floats become `ℚ`; `round(x, 4)` becomes
round-half-up to 4 decimals (Python rounds half to even; the two agree off
midpoints and the claims here do not depend on midpoint ties). -/

/-- Rounding a rational to 4 decimal places: `⌊x·10⁴ + 1/2⌋ / 10⁴`. -/
def round4 (q : ℚ) : ℚ :=
  ((Int.fdiv ((q * 10000).num * 2 + ((q * 10000).den : Int))
    (2 * ((q * 10000).den : Int))) : ℚ) / 10000

/-- `max(0.0, min(1.0, 1.0 - distance))`. -/
def clamp01 (q : ℚ) : ℚ := max 0 (min 1 q)

/-- A row of the issues table as seen by search: id, cosine distance to the
query vector, and the two text columns scanned by the LIKE fallback. -/
structure Row where
  issue_id : String
  distance : ℚ
  summary : String
  description_preview : String
deriving DecidableEq

/-- A search result: the row's id with its similarity score (standing for
the full result dict). -/
structure SearchHit where
  issue_id : String
  score : ℚ
deriving DecidableEq

def rowDistLe (a b : Row) : Prop := a.distance ≤ b.distance

instance : DecidableRel rowDistLe := fun a b => Rat.instDecidableLe a.distance b.distance

/-- `issues_table.search(vec).limit(n)` with an optional prefilter:
the `n` nearest rows by cosine distance. -/
def knnRaw (tbl : List Row) (pred : Row → Bool) (n : Nat) : List Row :=
  ((tbl.filter pred).insertionSort rowDistLe).take n

/-- The result loop of `search_issues`: skip falsy/duplicate ids, convert
distance to similarity, keep rows at or above the score threshold (only
those mark their id as seen), rounding the stored score to 4 decimals. -/
def dedupScore (min_score : ℚ) : List Row → List String → List SearchHit
  | [], _ => []
  | r :: rs, seen =>
    if r.issue_id ≠ "" ∧ ¬ seen.any (fun s => s = r.issue_id) then
      if min_score ≤ clamp01 (1 - r.distance) then
        ⟨r.issue_id, round4 (clamp01 (1 - r.distance))⟩ ::
          dedupScore min_score rs (r.issue_id :: seen)
      else dedupScore min_score rs seen
    else dedupScore min_score rs seen

/-- `store.LanceDBStore.search_issues`: over-fetch, dedup + threshold, then
paginate; returns the page and the total post-threshold count. -/
def search_issues (tbl : List Row) (pred : Row → Bool) (limit offset : Nat)
    (min_score : ℚ) : List SearchHit × Nat :=
  let fetch_limit :=
    if 0 < min_score then max ((limit + offset) * 5) 100
    else (limit + offset) * 3
  let all_matching := dedupScore min_score (knnRaw tbl pred fetch_limit) []
  ((all_matching.drop offset).take limit, all_matching.length)

/-- ASCII `str.lower()`. -/
def pyLowerChar (c : Char) : Char :=
  if 'A' ≤ c ∧ c ≤ 'Z' then Char.ofNat (c.toNat + 32) else c

def pyLower (s : String) : List Char := s.data.map pyLowerChar

/-- Substring containment (the effect of `LIKE '%q%'`; the quote doubling
in the escaped pattern denotes a literal quote, so the matched text is the
lowercased query itself). -/
def containsSub (s pat : List Char) : Bool :=
  (List.range (s.length + 1)).any (fun i => decide (OccAt pat s i))

/-- `store.LanceDBStore._like_search`: case-insensitive substring match on
`summary` or `description_preview`, conjoined with the filter predicate;
each hit gets the fixed score 0.5. -/
def _like_search (tbl : List Row) (pred : Row → Bool) (query_text : String)
    (limit : Nat) : List SearchHit :=
  ((tbl.filter (fun r =>
      (containsSub (pyLower r.summary) (pyLower query_text) ||
        containsSub (pyLower r.description_preview) (pyLower query_text)) &&
      pred r)).take limit).map (fun r => ⟨r.issue_id, 1 / 2⟩)

/-- `store.LanceDBStore._full_text_search`: the native FTS query requires
an FTS index, which this code never creates, so the `try` always falls
back to `_like_search`. -/
def _full_text_search (tbl : List Row) (pred : Row → Bool)
    (query_text : String) (limit : Nat) : List SearchHit :=
  _like_search tbl pred query_text limit

/-- A fused result: the entry of the `combined` dict after score fusion. -/
structure FusedHit where
  issue_id : String
  score : ℚ
  vector_score : ℚ
  fts_score : ℚ
deriving DecidableEq

/-- The second loop of `_fuse_results`: merge an FTS hit into the combined
dict (set `fts_score` in place if present, else append a vector-score-0
entry). -/
def fuseAddFts (acc : List (String × FusedHit)) (r : SearchHit) :
    List (String × FusedHit) :=
  if acc.any (fun e => e.1 = r.issue_id) then
    acc.map (fun e =>
      if e.1 = r.issue_id then (e.1, { e.2 with fts_score := r.score }) else e)
  else acc ++ [(r.issue_id, ⟨r.issue_id, r.score, 0, r.score⟩)]

/-- `store.LanceDBStore._fuse_results(vector_results, fts_results,
fts_weight)`: index vector hits by id (`vector_score := score`,
`fts_score := 0`), merge FTS hits, then recompute every score as
`(1 - fts_weight)·vector_score + fts_weight·fts_score`, in dict insertion
order. -/
def _fuse_results (vres fres : List SearchHit) (fts_weight : ℚ) :
    List FusedHit :=
  let combined := pyDictOfList (vres.map (fun r =>
    (r.issue_id, (⟨r.issue_id, r.score, r.score, 0⟩ : FusedHit))))
  let combined2 := fres.foldl fuseAddFts combined
  (combined2.map (fun e => e.2)).map (fun f =>
    { f with score := (1 - fts_weight) * f.vector_score +
        fts_weight * f.fts_score })

def scoreDescLe (a b : FusedHit) : Prop := b.score ≤ a.score

instance : DecidableRel scoreDescLe := fun a b => Rat.instDecidableLe b.score a.score

/-- `store.LanceDBStore.hybrid_search`: vector candidates at half the score
threshold, LIKE-fallback text candidates, weighted fusion, threshold, sort
by fused score descending (stable), paginate. -/
def hybrid_search (tbl : List Row) (pred : Row → Bool) (query_text : String)
    (limit offset : Nat) (fts_weight min_score : ℚ) :
    List FusedHit × Nat :=
  let vres := (search_issues tbl pred ((limit + offset) * 3) 0
    (min_score * (1 / 2))).1
  let fres := _full_text_search tbl pred query_text ((limit + offset) * 3)
  let fused := _fuse_results vres fres fts_weight
  let filtered := fused.filter (fun r => min_score ≤ r.score)
  let sorted := filtered.insertionSort scoreDescLe
  ((sorted.drop offset).take limit, sorted.length)

/-- The four-row table of the C3 counterexample: `"D"` is far from the
query vector but its summary matches the query text. -/
def c3Table : List Row :=
  [⟨"A", 1 / 10, "a", ""⟩, ⟨"B", 2 / 10, "a", ""⟩,
   ⟨"C", 3 / 10, "a", ""⟩, ⟨"D", 9 / 10, "zz", ""⟩]

unseal Rat.mul Rat.add Rat.sub Rat.inv in
/-- C3 counterexample: with `fts_weight = 0`, `min_score = 0`, `limit = 1`,
hybrid search reports total 4 (the FTS-only row `"D"` fuses to score 0 and
passes the `score ≥ 0` filter, and the vector stage was fetched with a
3×(limit+offset) candidate budget) while `search_issues` with the same
arguments reports total 3 - so hybrid results do not equal pure vector
results. -/
theorem hybrid_not_pure_vector :
    (hybrid_search c3Table (fun _ => true) "zz" 1 0 0 0).2 ≠
      (search_issues c3Table (fun _ => true) 1 0 0).2 ∧
    (hybrid_search c3Table (fun _ => true) "zz" 1 0 0 0).2 = 4 ∧
    (search_issues c3Table (fun _ => true) 1 0 0).2 = 3 := by
  refine ⟨by decide, by decide, by decide⟩

theorem fuse_entries_key_eq_id (vres fres : List SearchHit) :
    ∀ e ∈ fres.foldl fuseAddFts (pyDictOfList (vres.map (fun r =>
        (r.issue_id, (⟨r.issue_id, r.score, r.score, 0⟩ : FusedHit))))),
      e.1 = e.2.issue_id := by
  suffices hgen : ∀ (l : List SearchHit) (acc : List (String × FusedHit)),
      (∀ e ∈ acc, e.1 = e.2.issue_id) →
      ∀ e ∈ l.foldl fuseAddFts acc, e.1 = e.2.issue_id by
    apply hgen
    apply pyDictOfList_pred
    intro e he
    rcases List.mem_map.mp he with ⟨r, _, rfl⟩
    rfl
  intro l
  induction l with
  | nil =>
    intro acc hacc
    exact hacc
  | cons r rest ih =>
    intro acc hacc
    apply ih
    intro e he
    unfold fuseAddFts at he
    split at he
    · rcases List.mem_map.mp he with ⟨e0, he0, rfl⟩
      by_cases hk : e0.1 = r.issue_id
      · simp only [hk, if_true]
        rw [hacc e0 he0] at hk
        simp [← hk]
      · simp only [hk, if_false]
        exact hacc e0 he0
    · rcases List.mem_append.mp he with he1 | he1
      · exact hacc e he1
      · rcases List.mem_singleton.mp he1 with rfl
        rfl

theorem fuse_nonvector_vscore_zero (vres fres : List SearchHit) :
    ∀ e ∈ fres.foldl fuseAddFts (pyDictOfList (vres.map (fun r =>
        (r.issue_id, (⟨r.issue_id, r.score, r.score, 0⟩ : FusedHit))))),
      (∀ r ∈ vres, r.issue_id ≠ e.1) → e.2.vector_score = 0 := by
  suffices hgen : ∀ (l : List SearchHit) (acc : List (String × FusedHit)),
      (∀ e ∈ acc, (∀ r ∈ vres, r.issue_id ≠ e.1) → e.2.vector_score = 0) →
      ∀ e ∈ l.foldl fuseAddFts acc,
        (∀ r ∈ vres, r.issue_id ≠ e.1) → e.2.vector_score = 0 by
    apply hgen
    intro e he hne
    exfalso
    have : ∀ x ∈ (vres.map (fun r =>
        (r.issue_id, (⟨r.issue_id, r.score, r.score, 0⟩ : FusedHit)))),
        ∃ r ∈ vres, x.1 = r.issue_id := by
      intro x hx
      rcases List.mem_map.mp hx with ⟨r, hr, rfl⟩
      exact ⟨r, hr, rfl⟩
    rcases pyDictOfList_pred _ _ this e he with ⟨r, hr, hre⟩
    exact hne r hr hre.symm
  intro l
  induction l with
  | nil =>
    intro acc hacc
    exact hacc
  | cons r rest ih =>
    intro acc hacc
    apply ih
    intro e he hne
    unfold fuseAddFts at he
    split at he
    · rcases List.mem_map.mp he with ⟨e0, he0, rfl⟩
      by_cases hk : e0.1 = r.issue_id
      · rw [if_pos hk] at hne ⊢
        exact hacc e0 he0 hne
      · rw [if_neg hk] at hne ⊢
        exact hacc e0 he0 hne
    · rcases List.mem_append.mp he with he1 | he1
      · exact hacc e he1 hne
      · rcases List.mem_singleton.mp he1 with rfl
        rfl

theorem fuse_untouched_of_not_fts (fres : List SearchHit) :
    ∀ (acc : List (String × FusedHit)), ∀ e ∈ fres.foldl fuseAddFts acc,
      (∀ r ∈ fres, r.issue_id ≠ e.1) → e ∈ acc := by
  induction fres with
  | nil =>
    intro acc e he _
    exact he
  | cons r rest ih =>
    intro acc e he hne
    have he2 : e ∈ fuseAddFts acc r :=
      ih (fuseAddFts acc r) e he (fun x hx => hne x (by simp [hx]))
    unfold fuseAddFts at he2
    split at he2
    · rcases List.mem_map.mp he2 with ⟨e0, he0, heq⟩
      by_cases hk : e0.1 = r.issue_id
      · exfalso
        apply hne r (by simp)
        rw [← heq]
        simp [hk]
      · simp only [hk, if_false] at heq
        rw [← heq]
        exact he0
    · rcases List.mem_append.mp he2 with he1 | he1
      · exact he1
      · rcases List.mem_singleton.mp he1 with rfl
        exfalso
        exact hne r (by simp) rfl

theorem fuse_phase1_fts_zero (vres : List SearchHit) :
    ∀ e ∈ pyDictOfList (vres.map (fun r =>
        (r.issue_id, (⟨r.issue_id, r.score, r.score, 0⟩ : FusedHit)))),
      e.2.fts_score = 0 := by
  apply pyDictOfList_pred
  intro e he
  rcases List.mem_map.mp he with ⟨r, _, rfl⟩
  rfl

/-- C3 amended: with `fts_weight = 0` every fused result's score equals its
vector score, and a result whose id is absent from the vector results fuses
to score 0 (so with `min_score > 0` hybrid returns only vector-backed items
carrying exactly their vector scores, at or above the threshold);
symmetrically with `fts_weight = 1` every fused score equals the FTS score
and vector-only items fuse to 0. The hybrid output is NOT literally
`search_issues` with the same arguments: the vector stage runs with limit
`3×(limit+offset)`, offset 0 and threshold `min_score/2`, and the total is
recounted after fusion (see the counterexample). -/
theorem hybrid_fuse_weights :
    (∀ (vres fres : List SearchHit), ∀ f ∈ _fuse_results vres fres 0,
      f.score = f.vector_score) ∧
    (∀ (vres fres : List SearchHit), ∀ f ∈ _fuse_results vres fres 1,
      f.score = f.fts_score) ∧
    (∀ (vres fres : List SearchHit), ∀ f ∈ _fuse_results vres fres 0,
      (∀ r ∈ vres, r.issue_id ≠ f.issue_id) → f.score = 0) ∧
    (∀ (vres fres : List SearchHit), ∀ f ∈ _fuse_results vres fres 1,
      (∀ r ∈ fres, r.issue_id ≠ f.issue_id) → f.score = 0) ∧
    (∀ (tbl : List Row) (pred : Row → Bool) (q : String)
        (limit offset : Nat) (min_score : ℚ), 0 < min_score →
      ∀ f ∈ (hybrid_search tbl pred q limit offset 0 min_score).1,
        f.score = f.vector_score ∧ min_score ≤ f.score) := by
  have hshape : ∀ (vres fres : List SearchHit) (w : ℚ),
      ∀ f ∈ _fuse_results vres fres w, ∃ e ∈ fres.foldl fuseAddFts
        (pyDictOfList (vres.map (fun r =>
          (r.issue_id, (⟨r.issue_id, r.score, r.score, 0⟩ : FusedHit))))),
        f = { e.2 with score := (1 - w) * e.2.vector_score +
          w * e.2.fts_score } := by
    intro vres fres w f hf
    unfold _fuse_results at hf
    rcases List.mem_map.mp hf with ⟨g, hg, rfl⟩
    rcases List.mem_map.mp hg with ⟨e, he, rfl⟩
    exact ⟨e, he, rfl⟩
  have hw0 : ∀ (vres fres : List SearchHit), ∀ f ∈ _fuse_results vres fres 0,
      f.score = f.vector_score := by
    intro vres fres f hf
    rcases hshape vres fres 0 f hf with ⟨e, _, rfl⟩
    simp
  have hw1 : ∀ (vres fres : List SearchHit), ∀ f ∈ _fuse_results vres fres 1,
      f.score = f.fts_score := by
    intro vres fres f hf
    rcases hshape vres fres 1 f hf with ⟨e, _, rfl⟩
    simp
  have hv0 : ∀ (vres fres : List SearchHit), ∀ f ∈ _fuse_results vres fres 0,
      (∀ r ∈ vres, r.issue_id ≠ f.issue_id) → f.score = 0 := by
    intro vres fres f hf hne
    rcases hshape vres fres 0 f hf with ⟨e, he, rfl⟩
    have hkey := fuse_entries_key_eq_id vres fres e he
    have := fuse_nonvector_vscore_zero vres fres e he (by
      intro r hr
      rw [hkey]
      exact hne r hr)
    simp [this]
  refine ⟨hw0, hw1, hv0, ?_, ?_⟩
  · intro vres fres f hf hne
    rcases hshape vres fres 1 f hf with ⟨e, he, rfl⟩
    have hkey := fuse_entries_key_eq_id vres fres e he
    have hacc := fuse_untouched_of_not_fts fres _ e he (by
      intro r hr
      rw [hkey]
      exact hne r hr)
    have := fuse_phase1_fts_zero vres e hacc
    simp [this]
  · intro tbl pred q limit offset min_score hms f hf
    simp only [hybrid_search] at hf
    have hf3 := List.mem_of_mem_take hf
    have hf4 := List.mem_of_mem_drop hf3
    have hf5 : f ∈ (((_fuse_results
        ((search_issues tbl pred ((limit + offset) * 3) 0
          (min_score * (1 / 2))).1)
        (_full_text_search tbl pred q ((limit + offset) * 3)) 0).filter
          (fun r => min_score ≤ r.score))) := by
      have hperm := List.perm_insertionSort scoreDescLe
        ((_fuse_results
          ((search_issues tbl pred ((limit + offset) * 3) 0
            (min_score * (1 / 2))).1)
          (_full_text_search tbl pred q ((limit + offset) * 3)) 0).filter
            (fun r => min_score ≤ r.score))
      exact hperm.mem_iff.mp hf4
    rcases List.mem_filter.mp hf5 with ⟨hmem, hsc⟩
    refine ⟨hw0 _ _ f hmem, by simpa using hsc⟩

unseal Rat.mul Rat.add Rat.sub Rat.inv in
/-- C3 witness: the w = 0 fusion fact applied at a concrete one-element
vector result list and a concrete FTS hit. -/
theorem hybrid_fuse_weights_witness :
    ((⟨"A", 9 / 10, 9 / 10, 0⟩ : FusedHit) ∈
      _fuse_results [⟨"A", 9 / 10⟩] [⟨"B", 1 / 2⟩] 0) ∧
    (⟨"A", 9 / 10, 9 / 10, 0⟩ : FusedHit).score =
      (⟨"A", 9 / 10, 9 / 10, 0⟩ : FusedHit).vector_score :=
  ⟨by decide,
   hybrid_fuse_weights.1 [⟨"A", 9 / 10⟩] [⟨"B", 1 / 2⟩]
     ⟨"A", 9 / 10, 9 / 10, 0⟩ (by decide)⟩

/-! ## `self_query.SelfQueryParser.parse` (claim C4)

The LLM is an oracle returning one of: an API exception, malformed JSON, or
a decoded `(semantic_query, filters, interpretation)` triple. The relative
date resolver `parse_date_expression` (an ordered regex table evaluated
against `datetime.utcnow()`) is an oracle `resolve : now → expr →
Option timestamp`; only its dependence on the clock matters to the claim.
The md5 query-cache key is modelled by the normalized query itself, and
`time.time()` by the `Nat` clock. -/

/-- A filter operand after parsing: a raw string from the LLM, or an
ISO-formatted absolute date produced by resolution. -/
inductive QOperand where
  | str (s : String)
  | date (t : Nat)
deriving DecidableEq

inductive QFilterValue where
  | scalar (s : String)
  | ops (cs : List (String × QOperand))
deriving DecidableEq

/-- `self_query.ParsedQuery`. -/
structure ParsedQuery where
  semantic_query : String
  filters : List (String × QFilterValue)
  interpretation : String
  confidence : ℚ
  raw_query : String
deriving DecidableEq

/-- `SelfQueryParser._resolve_relative_dates(filters)`: walk operator
objects; string operands with the `RELATIVE:` marker are resolved against
the current clock (unresolvable expressions pass through unchanged). -/
def _resolve_relative_dates (resolve : String → Option Nat)
    (filters : List (String × QFilterValue)) : List (String × QFilterValue) :=
  filters.map (fun fv =>
    match fv.2 with
    | .ops cs =>
      (fv.1, .ops (cs.map (fun c =>
        match c.2 with
        | .str s =>
          if s.data.take 9 = "RELATIVE:".data then
            match resolve ⟨s.data.drop 9⟩ with
            | some d => (c.1, QOperand.date d)
            | none => (c.1, QOperand.str s)
          else (c.1, QOperand.str s)
        | od => (c.1, od))))
    | v => (fv.1, v))

/-- The module-global `_query_cache : key ↦ (parsed, timestamp)`. -/
abbrev QueryCache := List (String × (ParsedQuery × Nat))

/-- `SelfQueryParser._get_cache_key(query)`:
`md5(query.lower().strip())`, with md5 modelled by the normalized text. -/
def _get_cache_key (q : String) : String :=
  ⟨pyStrip (q.data.map pyLowerChar)⟩

/-- `SelfQueryParser._get_cached(key)`: TTL-bounded lookup (300 s);
expired entries are removed. Returns the hit and the updated cache. -/
def _get_cached (cache : QueryCache) (key : String) (now : Nat) :
    Option ParsedQuery × QueryCache :=
  match cache.find? (fun e => e.1 = key) with
  | some e =>
    if now - e.2.2 < 300 then (some e.2.1, cache)
    else (none, cache.filter (fun e2 => ¬ e2.1 = key))
  | none => (none, cache)

def qcacheTimeLe (a b : String × (ParsedQuery × Nat)) : Prop :=
  a.2.2 ≤ b.2.2

instance : DecidableRel qcacheTimeLe := fun a b => Nat.decLe a.2.2 b.2.2

/-- `SelfQueryParser._set_cached(key, parsed)`: when the cache is full
(1000 entries) drop the oldest tenth by timestamp, then store
`(parsed, now)`. -/
def _set_cached (cache : QueryCache) (key : String) (p : ParsedQuery)
    (now : Nat) : QueryCache :=
  let cache1 :=
    if 1000 ≤ cache.length then
      cache.filter (fun e =>
        ¬ (((cache.insertionSort qcacheTimeLe).take (1000 / 10)).map
          (fun v => v.1)).any (fun k => k = e.1))
    else cache
  pyDictUpd cache1 key (p, now)

/-- The three observable outcomes of the LLM call + JSON decode. -/
inductive LlmOutcome where
  | failure
  | badJson
  | ok (semantic_query : String) (filters : List (String × QFilterValue))
      (interpretation : String)

/-- `SelfQueryParser.parse(query)`: empty-query short-circuit, cache
lookup (hit returns a copy with the original `raw_query`), LLM call,
JSON decode (failure ⇒ confidence 0.3 fallback; API exception ⇒ 0.5
fallback and NO caching), then `_resolve_relative_dates`, and - the point
of claim C4 - `_set_cached` stores the ALREADY-RESOLVED `parsed`, the
code's "(before date resolution for reusability)" comment notwithstanding. -/
def selfQueryParse (resolve : Nat → String → Option Nat)
    (llm : String → LlmOutcome) (use_cache : Bool) (query : String)
    (now : Nat) (cache : QueryCache) : ParsedQuery × QueryCache :=
  if pyStrip query.data = [] then
    (⟨"", [], "Empty query", 0, query⟩, cache)
  else
    let cache_key := _get_cache_key query
    let lookup := if use_cache then _get_cached cache cache_key now
      else (none, cache)
    match lookup.1 with
    | some c => ({ c with raw_query := query }, lookup.2)
    | none =>
      match llm query with
      | .failure =>
        (⟨query, [],
          "Fallback: treating entire query as semantic search", 1 / 2,
          query⟩, lookup.2)
      | .badJson =>
        let parsed : ParsedQuery :=
          ⟨query, [], "Failed to parse LLM response", 3 / 10, query⟩
        let parsed :=
          { parsed with
            filters := _resolve_relative_dates (resolve now) parsed.filters }
        (parsed,
          if use_cache then _set_cached lookup.2 cache_key parsed now
          else lookup.2)
      | .ok sem fl interp =>
        let parsed : ParsedQuery := ⟨sem, fl, interp, 9 / 10, query⟩
        let parsed :=
          { parsed with
            filters := _resolve_relative_dates (resolve now) parsed.filters }
        (parsed,
          if use_cache then _set_cached lookup.2 cache_key parsed now
          else lookup.2)

/-- The concrete resolver of the C4 failing input: `"last week"` resolves
to `now - 7·86400` (`_now() - timedelta(weeks=1)`). -/
def c4Resolve : Nat → String → Option Nat :=
  fun now e => if e = "last week" then some (now - 604800) else none

/-- The LLM reply for `"bugs from last week"`: a `created_at` filter with
the `RELATIVE:last week` marker. -/
def c4Llm : String → LlmOutcome :=
  fun _ => LlmOutcome.ok "bugs"
    [("created_at", QFilterValue.ops [("$gte", QOperand.str "RELATIVE:last week")])]
    "bugs created in the last week"

/-- C4: the code resolves relative dates BEFORE caching (despite its
comment "Cache the result (before date resolution for reusability)"): the
cached entry holds the absolute date of the first parse (no `RELATIVE:`
marker survives), and a cache hit 100 s later returns the first call's
absolute date instead of re-resolving at the later clock. -/
theorem parse_caches_post_resolution :
    (selfQueryParse c4Resolve c4Llm true "bugs from last week" 1000000 []).1.filters =
      [("created_at", QFilterValue.ops
        [("$gte", QOperand.date (1000000 - 604800))])] ∧
    (((selfQueryParse c4Resolve c4Llm true "bugs from last week" 1000000 []).2.find?
        (fun e => e.1 = _get_cache_key "bugs from last week")).map
          (fun e => e.2.1.filters)) =
      some [("created_at", QFilterValue.ops
        [("$gte", QOperand.date (1000000 - 604800))])] ∧
    (selfQueryParse c4Resolve c4Llm true "bugs from last week" 1000100
        (selfQueryParse c4Resolve c4Llm true "bugs from last week" 1000000 []).2).1.filters =
      [("created_at", QFilterValue.ops
        [("$gte", QOperand.date (1000000 - 604800))])] ∧
    (selfQueryParse c4Resolve c4Llm true "bugs from last week" 1000100
        (selfQueryParse c4Resolve c4Llm true "bugs from last week" 1000000 []).2).1.filters ≠
      [("created_at", QFilterValue.ops
        [("$gte", QOperand.date (1000100 - 604800))])] := by
  refine ⟨by decide, by decide, by decide, by decide⟩

/-! ## C1/C10: the sync engine (`sync.py`)

`VectorSyncEngine._sync_project`, `full_sync` and `incremental_sync`.
Datetimes are seconds (`datetime.min` is 0); the Jira search, the store
lookup, the embedder and `_sync_comments_for_issues` are oracles in a
`SyncEnv`; the `while True` pagination loop is fueled (every theorem
below holds for every fuel, so no termination hypothesis is needed).
Embedding and storage themselves are modelled as non-raising; the page
fetch can fail (its exception is caught inside the loop) and the comment
target list of the incremental path can raise the `TypeError` of claim
C10 (which escapes `_sync_project`). -/

/-- A Jira issue as `search_issues` returns it, restricted to the fields
`_sync_project` reads: the key, the hash-relevant content fields, and the
`updated_at` timestamp (already parsed to seconds; lines 448-458 parse
the string form). -/
structure RemoteIssue where
  key : String
  summary : String
  description : Option String
  labels : List String
  status : String
  updated_at : Nat
deriving DecidableEq

/-- Lexicographic comparison of Python strings (as char lists). -/
def charListLe : List Char → List Char → Bool
  | [], _ => true
  | _ :: _, [] => false
  | c :: cs, d :: ds => if c = d then charListLe cs ds else decide (c < d)

/-- Insert a string into an ascending list, keeping it sorted. -/
def insertStr (s : String) : List String → List String
  | [] => [s]
  | t :: ts => if charListLe s.data t.data then s :: t :: ts else t :: insertStr s ts

/-- Python `sorted` on strings (ascending lexicographic, stable). -/
def pySortStrings : List String → List String
  | [] => []
  | s :: ss => insertStr s (pySortStrings ss)

/-- `schemas.compute_content_hash`: md5 of
`"{summary}|{description or two-empty}|{comma-join(sorted(labels))}|{status}"`.
md5 is modelled by the hashed content itself (an injective stand-in). -/
def compute_content_hash (summary : String) (description : Option String)
    (labels : List String) (status : String) : String :=
  summary ++ "|" ++ description.getD "" ++ "|" ++
    String.intercalate "," (pySortStrings labels) ++ "|" ++ status

/-- The slice of `_issue_to_dict` output that `_sync_project` consumes,
plus the `content_hash` entry added at line 445 (empty until then). -/
structure IssueDict where
  issue_id : String
  summary : String
  description : Option String
  labels : List String
  status : String
  updated_at : Nat
  content_hash : String
deriving DecidableEq

/-- `VectorSyncEngine._issue_to_dict`, restricted to the fields above
(`issue_id` is the issue key). -/
def _issue_to_dict (i : RemoteIssue) : IssueDict :=
  ⟨i.key, i.summary, i.description, i.labels, i.status, i.updated_at, ""⟩

/-- `sync.SyncResult` (the duration field is omitted). -/
structure SyncResult where
  issues_processed : Nat
  issues_embedded : Nat
  issues_skipped : Nat
  issues_deleted : Nat
  comments_processed : Nat
  comments_embedded : Nat
  errors : List String
deriving DecidableEq

/-- `SyncResult()` with all dataclass defaults. -/
def emptySyncResult : SyncResult := ⟨0, 0, 0, 0, 0, 0, []⟩

/-- `sync.SyncState`, restricted to the fields the sync paths read or
write. -/
structure SyncState where
  last_sync_at : Nat
  last_issue_updated : Nat
  projects_synced : List String
  total_issues_indexed : Int
deriving DecidableEq

/-- The remote services one `_sync_project` call touches: `pages` is
`jira.search_issues` keyed by the `last_key` pagination cursor (`.error`
is a raised exception rendered as its message); `get_issue_by_key` is the
store lookup, returning the stored `content_hash`; `embedLen` is how many
vectors `embedder.embed_batch` returns for a batch (`zip` with
`strict=False` truncates the records to it); `all_issue_ids` is
`store.get_all_issue_ids(project_key)`; `commentSync` is
`_sync_comments_for_issues` (processed, embedded, errors). -/
structure SyncEnv where
  pages : Option String → Except String (List RemoteIssue)
  get_issue_by_key : String → Option String
  embedLen : List IssueDict → Nat
  sync_comments : Bool
  batch_size : Nat
  all_issue_ids : List String
  commentSync : List String → Nat × Nat × List String

/-- The mutable state of the pagination loop of `_sync_project`, plus a
ghost `embedded` history of the issue dicts actually stored (the records
built at `_embed_and_store` lines 551-576 project these dicts). -/
structure LoopSt where
  res : SyncResult
  issues_to_embed : List (String × IssueDict)
  synced_ids : List String
  max_updated : Nat
  last_key : Option String
  embedded : List IssueDict

/-- The per-issue body of the pagination loop (lines 419-461): count the
issue, skip ids already synced this run, on incremental skip when the
stored hash matches, else record the dict under `issues_to_embed[id]`
and raise `max_updated` to its `updated_at`. -/
def processIssue (incremental : Bool) (env : SyncEnv) (st : LoopSt)
    (issue : RemoteIssue) : LoopSt :=
  let st := { st with res :=
    { st.res with issues_processed := st.res.issues_processed + 1 } }
  let d := _issue_to_dict issue
  if st.synced_ids.any (fun id => id = d.issue_id) then
    { st with res :=
      { st.res with issues_skipped := st.res.issues_skipped + 1 } }
  else
    let content_hash :=
      compute_content_hash d.summary d.description d.labels d.status
    if incremental = true ∧
        env.get_issue_by_key d.issue_id = some content_hash then
      { st with res :=
        { st.res with issues_skipped := st.res.issues_skipped + 1 } }
    else
      let d := { d with content_hash := content_hash }
      let st := { st with issues_to_embed := pyDictUpd st.issues_to_embed d.issue_id d }
      if st.max_updated < d.updated_at then
        { st with max_updated := d.updated_at }
      else st

/-- `_embed_and_store(list(issues_to_embed.values()), ...)` plus the
bookkeeping of its caller (`result.issues_embedded += count`,
`synced_ids.update(issues_to_embed.keys())`): `zip(issues, embeddings,
strict=False)` keeps `min (embedLen items) items.length` records, which
both `bulk_insert_issues` (the keys are already unique here) and
`upsert_issues` store and count. It does NOT clear `issues_to_embed`
(the in-loop flush does; the final flush at line 488 does not). -/
def flushEmbed (env : SyncEnv) (st : LoopSt) : LoopSt :=
  let items := st.issues_to_embed.map (fun e => e.2)
  let cnt := min (env.embedLen items) items.length
  { st with
    res := { st.res with issues_embedded := st.res.issues_embedded + cnt }
    synced_ids := st.synced_ids ++ st.issues_to_embed.map (fun e => e.1)
    embedded := st.embedded ++ items.take cnt }

/-- The `while True` pagination loop (lines 391-485), fueled: fetch the
page for the current cursor (an exception appends the error and breaks),
break on an empty page, else remember the last key of the page, run the
per-issue body over the page, flush a full embedding batch (clearing
`issues_to_embed`), and stop after a short (fewer than 1000 issues)
page. -/
def pageLoop (env : SyncEnv) (incremental : Bool) (embed_batch_size : Nat) :
    Nat → LoopSt → LoopSt
  | 0, st => st
  | fuel + 1, st =>
    match env.pages st.last_key with
    | .error e =>
      { st with res := { st.res with errors := st.res.errors ++ ["Error fetching issues: " ++ e] } }
    | .ok [] => st
    | .ok (i :: is) =>
      let st := { st with last_key := some (((i :: is).getLast (List.cons_ne_nil i is)).key) }
      let st := (i :: is).foldl (processIssue incremental env) st
      let st :=
        if embed_batch_size ≤ st.issues_to_embed.length then
          { flushEmbed env st with issues_to_embed := [] }
        else st
      if (i :: is).length < 1000 then st
      else pageLoop env incremental embed_batch_size fuel st

/-- `_sync_project` through line 493: the pagination loop from the fresh
per-project state (`max_updated` starts at `state.last_issue_updated`,
line 388; `embed_batch_size = 100 if not incremental else
config.batch_size`, line 385), then the final-batch flush (line 488),
which runs only on a non-empty dict and does not clear it. -/
def postLoopState (env : SyncEnv) (incremental : Bool) (state : SyncState)
    (fuel : Nat) : LoopSt :=
  let embed_batch_size := if incremental then env.batch_size else 100
  let st := pageLoop env incremental embed_batch_size fuel
    ⟨emptySyncResult, [], [], state.last_issue_updated, none, []⟩
  if st.issues_to_embed = [] then st else flushEmbed env st

/-- A fragment of Python values, enough to evaluate
`[i["issue_id"] for i in issues_to_embed]`: iterating a dict yields its
keys as `str` values, and subscripting a `str` with a string raises
`TypeError: string indices must be integers`. -/
inductive PyVal where
  | str (s : String)
  | dict (entries : List (String × PyVal))

/-- Python subscription `v[k]` for a string key `k`. -/
def pySubscript : PyVal → String → Except String PyVal
  | .str _, _ => .error "TypeError: string indices must be integers"
  | .dict es, k =>
    match es.find? (fun e => e.1 = k) with
    | some e => .ok e.2
    | none => .error ("KeyError: " ++ k)

/-- Lines 510-512: `issue_keys_to_sync = [i["issue_id"] for i in
issues_to_embed] if issues_to_embed else []`. Iterating the DICT yields
its key strings, so each `i["issue_id"]` subscripts a `str`; an `.error`
is the exception escaping `_sync_project`. -/
def commentKeysExpr (issues_to_embed : List (String × IssueDict)) :
    Except String (List String) :=
  if issues_to_embed = [] then .ok []
  else
    (issues_to_embed.map (fun e => PyVal.str e.1)).mapM
      (fun i =>
        match pySubscript i "issue_id" with
        | .ok (PyVal.str s) => Except.ok s
        | .ok (PyVal.dict _) => Except.error "unexpected value"
        | .error e => Except.error e)

/-- `VectorSyncEngine._sync_project`: loop and final flush, the
`last_issue_updated` watermark commit (lines 500-502), then comment sync
(lines 504-523). Returns (mutated shared `state`, result, ghost stored
dicts, escaped exception): the state keeps its watermark update even
when the comment-path exception escapes, because lines 500-502 run
first. Clearing (full path, line 361) and `compact()` touch only the
store. -/
def syncProject (env : SyncEnv) (incremental : Bool) (state : SyncState)
    (fuel : Nat) : SyncState × SyncResult × List IssueDict × Option String :=
  let st := postLoopState env incremental state fuel
  let state1 :=
    if state.last_issue_updated < st.max_updated then
      { state with last_issue_updated := st.max_updated }
    else state
  if env.sync_comments = true ∧ 0 < st.res.issues_embedded then
    match (if incremental then commentKeysExpr st.issues_to_embed
      else .ok (env.all_issue_ids.take 100)) with
    | .error e => (state1, st.res, st.embedded, some e)
    | .ok keys =>
      if keys = [] then (state1, st.res, st.embedded, none)
      else
        let c := env.commentSync keys
        (state1,
          { st.res with
            comments_processed := st.res.comments_processed + c.1
            comments_embedded := st.res.comments_embedded + c.2.1
            errors := st.res.errors ++ c.2.2 },
          st.embedded, none)
  else (state1, st.res, st.embedded, none)

/-- One project iteration of `full_sync` (lines 175-192): on success,
fold the project counters into the aggregate result and append the
project to `projects_synced` if new; on an escaped exception, record the
error message and keep only the state mutations (and, in the ghost
component, the dicts that were nevertheless stored). -/
def fullSyncStep (envs : String → SyncEnv) (fuel : Nat)
    (acc : SyncState × SyncResult × List IssueDict) (pk : String) :
    SyncState × SyncResult × List IssueDict :=
  let r := syncProject (envs pk) false acc.1 fuel
  match r.2.2.2 with
  | none =>
    let res := acc.2.1
    let res := { res with
      issues_processed := res.issues_processed + r.2.1.issues_processed
      issues_embedded := res.issues_embedded + r.2.1.issues_embedded
      issues_skipped := res.issues_skipped + r.2.1.issues_skipped
      errors := res.errors ++ r.2.1.errors }
    let state := r.1
    let state :=
      if state.projects_synced.any (fun p => p = pk) then state
      else { state with projects_synced := state.projects_synced ++ [pk] }
    (state, res, acc.2.2 ++ r.2.2.1)
  | some e =>
    (r.1,
      { acc.2.1 with errors := acc.2.1.errors ++
        ["Error syncing project " ++ pk ++ ": " ++ e] },
      acc.2.2 ++ r.2.2.1)

/-- `full_sync(projects)` (lines 147-205): fold the resolved project
list, then finalize `last_sync_at` (the completion clock `now`) and
`total_issues_indexed = result.issues_embedded`, and save. -/
def full_sync (envs : String → SyncEnv) (projects : List String)
    (fuel : Nat) (now : Nat) (state0 : SyncState) :
    SyncState × SyncResult × List IssueDict :=
  let r := projects.foldl (fullSyncStep envs fuel) (state0, emptySyncResult, [])
  ({ r.1 with
      last_sync_at := now
      total_issues_indexed := (r.2.1.issues_embedded : Int) },
    r.2.1, r.2.2)

/-- One project iteration of `incremental_sync` (lines 241-254): like the
full variant but with `incremental=True`, a different error message, and
no `projects_synced` update. -/
def incrSyncStep (envs : String → SyncEnv) (fuel : Nat)
    (acc : SyncState × SyncResult × List IssueDict) (pk : String) :
    SyncState × SyncResult × List IssueDict :=
  let r := syncProject (envs pk) true acc.1 fuel
  match r.2.2.2 with
  | none =>
    let res := acc.2.1
    let res := { res with
      issues_processed := res.issues_processed + r.2.1.issues_processed
      issues_embedded := res.issues_embedded + r.2.1.issues_embedded
      issues_skipped := res.issues_skipped + r.2.1.issues_skipped
      errors := res.errors ++ r.2.1.errors }
    (r.1, res, acc.2.2 ++ r.2.2.1)
  | some e =>
    (r.1,
      { acc.2.1 with errors := acc.2.1.errors ++
        ["Error in incremental sync for " ++ pk ++ ": " ++ e] },
      acc.2.2 ++ r.2.2.1)

/-- `incremental_sync(projects)` (lines 207-278): fold the projects with
`incremental=True`; when anything was processed, run deletion detection
per project (`dels pk` supplies that project indexed ids and existence
oracle; batch size 100); finalize `last_sync_at` and
`total_issues_indexed += embedded - deleted`, and save. -/
def incremental_sync (envs : String → SyncEnv)
    (dels : String → List String × (List String → Except Unit (List String)))
    (projects : List String) (fuel : Nat) (now : Nat) (state0 : SyncState) :
    SyncState × SyncResult × List IssueDict :=
  let r := projects.foldl (incrSyncStep envs fuel) (state0, emptySyncResult, [])
  let res := r.2.1
  let res :=
    if 0 < res.issues_processed then
      projects.foldl
        (fun res pk =>
          { res with issues_deleted := res.issues_deleted +
            (_detect_and_remove_deleted_issues (dels pk).1 (dels pk).2
              100).length })
        res
    else res
  ({ r.1 with
      last_sync_at := now
      total_issues_indexed := r.1.total_issues_indexed + ((res.issues_embedded : Int) - (res.issues_deleted : Int)) },
    res, r.2.2)

/-- A completed sync run with its environment. -/
inductive SyncRun where
  | full (envs : String → SyncEnv) (projects : List String) (fuel now : Nat)
  | incr (envs : String → SyncEnv)
      (dels : String → List String × (List String → Except Unit (List String)))
      (projects : List String) (fuel now : Nat)

/-- Execute a sequence of completed runs against the persisted state,
accumulating the ghost list of every issue dict stored in any run. -/
def execRuns (state : SyncState) (runs : List SyncRun) :
    SyncState × List IssueDict :=
  runs.foldl
    (fun acc run =>
      match run with
      | .full envs projects fuel now =>
        let r := full_sync envs projects fuel now acc.1
        (r.1, acc.2 ++ r.2.2)
      | .incr envs dels projects fuel now =>
        let r := incremental_sync envs dels projects fuel now acc.1
        (r.1, acc.2 ++ r.2.2)) (state, [])

theorem processIssue_spec (incremental : Bool) (env : SyncEnv)
    (st : LoopSt) (issue : RemoteIssue) :
    st.max_updated ≤ (processIssue incremental env st issue).max_updated ∧
    (processIssue incremental env st issue).embedded = st.embedded ∧
    (processIssue incremental env st issue).res.comments_processed =
      st.res.comments_processed ∧
    (processIssue incremental env st issue).res.comments_embedded =
      st.res.comments_embedded ∧
    ((∀ e ∈ st.issues_to_embed, e.2.updated_at ≤ st.max_updated) →
      ∀ e ∈ (processIssue incremental env st issue).issues_to_embed,
        e.2.updated_at ≤ (processIssue incremental env st issue).max_updated) := by
  simp only [processIssue]
  split
  · exact ⟨Nat.le_refl _, rfl, rfl, rfl, fun h => h⟩
  · split
    · exact ⟨Nat.le_refl _, rfl, rfl, rfl, fun h => h⟩
    · split
      · next hlt =>
        refine ⟨Nat.le_of_lt hlt, rfl, rfl, rfl, fun h => ?_⟩
        refine pyDictUpd_pred _ _ _ _ (fun e he => ?_) (Nat.le_refl _)
        exact Nat.le_trans (h e he) (Nat.le_of_lt hlt)
      · next hnlt =>
        refine ⟨Nat.le_refl _, rfl, rfl, rfl, fun h => ?_⟩
        refine pyDictUpd_pred _ _ _ _ h ?_
        exact Nat.le_of_not_lt hnlt

theorem flushEmbed_spec (env : SyncEnv) (st : LoopSt) :
    (flushEmbed env st).max_updated = st.max_updated ∧
    (flushEmbed env st).issues_to_embed = st.issues_to_embed ∧
    (flushEmbed env st).res.comments_processed = st.res.comments_processed ∧
    (flushEmbed env st).res.comments_embedded = st.res.comments_embedded ∧
    ((∀ d ∈ st.embedded, d.updated_at ≤ st.max_updated) →
     (∀ e ∈ st.issues_to_embed, e.2.updated_at ≤ st.max_updated) →
      ∀ d ∈ (flushEmbed env st).embedded, d.updated_at ≤ st.max_updated) := by
  refine ⟨rfl, rfl, rfl, rfl, fun h1 h2 d hd => ?_⟩
  simp only [flushEmbed] at hd
  rcases List.mem_append.mp hd with hold | hnew
  · exact h1 d hold
  · have := List.mem_of_mem_take hnew
    rcases List.mem_map.mp this with ⟨e, he, rfl⟩
    exact h2 e he

theorem foldl_processIssue_spec (incremental : Bool) (env : SyncEnv) :
    ∀ (l : List RemoteIssue) (st : LoopSt),
      st.max_updated ≤
        (List.foldl (processIssue incremental env) st l).max_updated ∧
      (List.foldl (processIssue incremental env) st l).embedded =
        st.embedded ∧
      (List.foldl (processIssue incremental env) st l).res.comments_processed =
        st.res.comments_processed ∧
      (List.foldl (processIssue incremental env) st l).res.comments_embedded =
        st.res.comments_embedded ∧
      ((∀ e ∈ st.issues_to_embed, e.2.updated_at ≤ st.max_updated) →
        ∀ e ∈ (List.foldl (processIssue incremental env) st l).issues_to_embed,
          e.2.updated_at ≤
            (List.foldl (processIssue incremental env) st l).max_updated) := by
  intro l
  induction l with
  | nil => exact fun st => ⟨Nat.le_refl _, rfl, rfl, rfl, fun h => h⟩
  | cons i is ih =>
    intro st
    obtain ⟨p1, p2, p3, p4, p5⟩ := processIssue_spec incremental env st i
    obtain ⟨q1, q2, q3, q4, q5⟩ := ih (processIssue incremental env st i)
    rw [List.foldl_cons]
    exact ⟨Nat.le_trans p1 q1, q2.trans p2, q3.trans p3, q4.trans p4,
      fun h => q5 (p5 h)⟩

theorem pageLoop_spec (env : SyncEnv) (incremental : Bool)
    (embed_batch_size : Nat) :
    ∀ (fuel : Nat) (st : LoopSt),
      st.max_updated ≤
        (pageLoop env incremental embed_batch_size fuel st).max_updated ∧
      (pageLoop env incremental embed_batch_size fuel st).res.comments_processed =
        st.res.comments_processed ∧
      (pageLoop env incremental embed_batch_size fuel st).res.comments_embedded =
        st.res.comments_embedded ∧
      ((∀ d ∈ st.embedded, d.updated_at ≤ st.max_updated) →
       (∀ e ∈ st.issues_to_embed, e.2.updated_at ≤ st.max_updated) →
        (∀ d ∈ (pageLoop env incremental embed_batch_size fuel st).embedded,
          d.updated_at ≤
            (pageLoop env incremental embed_batch_size fuel st).max_updated) ∧
        (∀ e ∈ (pageLoop env incremental embed_batch_size fuel st).issues_to_embed,
          e.2.updated_at ≤
            (pageLoop env incremental embed_batch_size fuel st).max_updated)) := by
  intro fuel
  induction fuel with
  | zero => exact fun st => ⟨Nat.le_refl _, rfl, rfl, fun h1 h2 => ⟨h1, h2⟩⟩
  | succ fuel ih =>
    intro st
    simp only [pageLoop]
    split
    · exact ⟨Nat.le_refl _, rfl, rfl, fun h1 h2 => ⟨h1, h2⟩⟩
    · exact ⟨Nat.le_refl _, rfl, rfl, fun h1 h2 => ⟨h1, h2⟩⟩
    · next i is hp =>
      set st1 : LoopSt :=
        { st with last_key := some (((i :: is).getLast (List.cons_ne_nil i is)).key) } with hst1
      obtain ⟨f1, f2, f3, f4, f5⟩ :=
        foldl_processIssue_spec incremental env (i :: is) st1
      set st2 : LoopSt := List.foldl (processIssue incremental env) st1 (i :: is) with hst2
      obtain ⟨g1, g2, g3, g4, g5⟩ := flushEmbed_spec env st2
      set st3 : LoopSt :=
        (if embed_batch_size ≤ st2.issues_to_embed.length then
          { flushEmbed env st2 with issues_to_embed := [] }
        else st2) with hst3
      have hmax3 : st3.max_updated = st2.max_updated := by
        rw [hst3]; split
        · exact g1
        · rfl
      have hc3p : st3.res.comments_processed = st2.res.comments_processed := by
        rw [hst3]; split
        · exact g3
        · rfl
      have hc3e : st3.res.comments_embedded = st2.res.comments_embedded := by
        rw [hst3]; split
        · exact g4
        · rfl
      have hinv3 : (∀ d ∈ st2.embedded, d.updated_at ≤ st2.max_updated) →
          (∀ e ∈ st2.issues_to_embed, e.2.updated_at ≤ st2.max_updated) →
          (∀ d ∈ st3.embedded, d.updated_at ≤ st3.max_updated) ∧
          (∀ e ∈ st3.issues_to_embed, e.2.updated_at ≤ st3.max_updated) := by
        intro h1 h2
        rw [hst3]; split
        · constructor
          · intro d hd
            exact le_of_le_of_eq (g5 h1 h2 d hd) g1.symm
          · intro e he
            exact absurd he (List.not_mem_nil e)
        · exact ⟨h1, h2⟩
      have hmax12 : st.max_updated ≤ st3.max_updated := by
        rw [hmax3]; exact f1
      have hcp12 : st3.res.comments_processed = st.res.comments_processed := by
        rw [hc3p]; exact f3
      have hce12 : st3.res.comments_embedded = st.res.comments_embedded := by
        rw [hc3e]; exact f4
      have hinv12 : (∀ d ∈ st.embedded, d.updated_at ≤ st.max_updated) →
          (∀ e ∈ st.issues_to_embed, e.2.updated_at ≤ st.max_updated) →
          (∀ d ∈ st3.embedded, d.updated_at ≤ st3.max_updated) ∧
          (∀ e ∈ st3.issues_to_embed, e.2.updated_at ≤ st3.max_updated) := by
        intro h1 h2
        refine hinv3 ?_ ?_
        · intro d hd
          rw [hst2, f2] at hd
          exact Nat.le_trans (h1 d hd) f1
        · exact f5 h2
      split
      · exact ⟨hmax12, hcp12, hce12, hinv12⟩
      · obtain ⟨r1, r2, r3, r4⟩ := ih st3
        refine ⟨Nat.le_trans hmax12 r1, r2.trans hcp12, r3.trans hce12,
          fun h1 h2 => ?_⟩
        obtain ⟨k1, k2⟩ := hinv12 h1 h2
        exact r4 k1 k2

theorem postLoopState_spec (env : SyncEnv) (incremental : Bool)
    (state : SyncState) (fuel : Nat) :
    state.last_issue_updated ≤
      (postLoopState env incremental state fuel).max_updated ∧
    (∀ d ∈ (postLoopState env incremental state fuel).embedded,
      d.updated_at ≤ (postLoopState env incremental state fuel).max_updated) ∧
    (∀ e ∈ (postLoopState env incremental state fuel).issues_to_embed,
      e.2.updated_at ≤ (postLoopState env incremental state fuel).max_updated) ∧
    (postLoopState env incremental state fuel).res.comments_processed = 0 ∧
    (postLoopState env incremental state fuel).res.comments_embedded = 0 := by
  simp only [postLoopState]
  generalize (if incremental = true then env.batch_size else 100) = ebs
  obtain ⟨p1, p2, p3, p4⟩ :=
    pageLoop_spec env incremental ebs
      fuel ⟨emptySyncResult, [], [], state.last_issue_updated, none, []⟩
  obtain ⟨i1, i2⟩ := p4 (fun d hd => absurd hd (List.not_mem_nil d))
    (fun e he => absurd he (List.not_mem_nil e))
  set stL : LoopSt :=
    pageLoop env incremental ebs
      fuel ⟨emptySyncResult, [], [], state.last_issue_updated, none, []⟩ with hstL
  obtain ⟨g1, g2, g3, g4, g5⟩ := flushEmbed_spec env stL
  split
  · exact ⟨p1, i1, i2, p2, p3⟩
  · refine ⟨le_of_le_of_eq p1 g1.symm, ?_, ?_, g3.trans p2, g4.trans p3⟩
    · intro d hd
      exact le_of_le_of_eq (g5 i1 i2 d hd) g1.symm
    · intro e he
      rw [g2] at he
      exact le_of_le_of_eq (i2 e he) g1.symm

theorem syncProject_fst (env : SyncEnv) (incremental : Bool)
    (state : SyncState) (fuel : Nat) :
    (syncProject env incremental state fuel).1 =
      (if state.last_issue_updated <
          (postLoopState env incremental state fuel).max_updated then
        { state with last_issue_updated :=
            (postLoopState env incremental state fuel).max_updated }
      else state) ∧
    (syncProject env incremental state fuel).2.2.1 =
      (postLoopState env incremental state fuel).embedded := by
  simp only [syncProject]
  split
  · split
    · exact ⟨rfl, rfl⟩
    · split
      · exact ⟨rfl, rfl⟩
      · exact ⟨rfl, rfl⟩
  · exact ⟨rfl, rfl⟩

theorem syncProject_watermark (env : SyncEnv) (incremental : Bool)
    (state : SyncState) (fuel : Nat) :
    state.last_issue_updated ≤
      (syncProject env incremental state fuel).1.last_issue_updated ∧
    ∀ d ∈ (syncProject env incremental state fuel).2.2.1,
      d.updated_at ≤
        (syncProject env incremental state fuel).1.last_issue_updated := by
  obtain ⟨hfst, hghost⟩ := syncProject_fst env incremental state fuel
  obtain ⟨h1, h2, _, _, _⟩ := postLoopState_spec env incremental state fuel
  rw [hfst, hghost]
  by_cases hlt : state.last_issue_updated <
      (postLoopState env incremental state fuel).max_updated
  · rw [if_pos hlt]
    exact ⟨Nat.le_of_lt hlt, fun d hd => h2 d hd⟩
  · rw [if_neg hlt]
    exact ⟨Nat.le_refl _,
      fun d hd => Nat.le_trans (h2 d hd) (Nat.le_of_not_lt hlt)⟩

theorem fullSyncStep_watermark (envs : String → SyncEnv) (fuel : Nat)
    (s0 : Nat) (acc : SyncState × SyncResult × List IssueDict) (pk : String)
    (h : s0 ≤ acc.1.last_issue_updated ∧
      ∀ d ∈ acc.2.2, d.updated_at ≤ acc.1.last_issue_updated) :
    s0 ≤ (fullSyncStep envs fuel acc pk).1.last_issue_updated ∧
    ∀ d ∈ (fullSyncStep envs fuel acc pk).2.2,
      d.updated_at ≤ (fullSyncStep envs fuel acc pk).1.last_issue_updated := by
  obtain ⟨hm, hg⟩ := syncProject_watermark (envs pk) false acc.1 fuel
  simp only [fullSyncStep]
  split
  · constructor
    · · split
        · exact Nat.le_trans h.1 hm
        · exact Nat.le_trans h.1 hm
    · intro d hd
      rcases List.mem_append.mp hd with hold | hnew
      · have hb := Nat.le_trans (h.2 d hold) hm
        split
        · exact hb
        · exact hb
      · have hb := hg d hnew
        split
        · exact hb
        · exact hb
  · exact ⟨Nat.le_trans h.1 hm,
      fun d hd => by
        rcases List.mem_append.mp hd with hold | hnew
        · exact Nat.le_trans (h.2 d hold) hm
        · exact hg d hnew⟩

theorem incrSyncStep_watermark (envs : String → SyncEnv) (fuel : Nat)
    (s0 : Nat) (acc : SyncState × SyncResult × List IssueDict) (pk : String)
    (h : s0 ≤ acc.1.last_issue_updated ∧
      ∀ d ∈ acc.2.2, d.updated_at ≤ acc.1.last_issue_updated) :
    s0 ≤ (incrSyncStep envs fuel acc pk).1.last_issue_updated ∧
    ∀ d ∈ (incrSyncStep envs fuel acc pk).2.2,
      d.updated_at ≤ (incrSyncStep envs fuel acc pk).1.last_issue_updated := by
  obtain ⟨hm, hg⟩ := syncProject_watermark (envs pk) true acc.1 fuel
  simp only [incrSyncStep]
  split
  · exact ⟨Nat.le_trans h.1 hm,
      fun d hd => by
        rcases List.mem_append.mp hd with hold | hnew
        · exact Nat.le_trans (h.2 d hold) hm
        · exact hg d hnew⟩
  · exact ⟨Nat.le_trans h.1 hm,
      fun d hd => by
        rcases List.mem_append.mp hd with hold | hnew
        · exact Nat.le_trans (h.2 d hold) hm
        · exact hg d hnew⟩

theorem foldl_fullSyncStep_watermark (envs : String → SyncEnv) (fuel : Nat)
    (s0 : Nat) :
    ∀ (projects : List String) (acc : SyncState × SyncResult × List IssueDict),
      (s0 ≤ acc.1.last_issue_updated ∧
        ∀ d ∈ acc.2.2, d.updated_at ≤ acc.1.last_issue_updated) →
      s0 ≤ (projects.foldl (fullSyncStep envs fuel) acc).1.last_issue_updated ∧
      ∀ d ∈ (projects.foldl (fullSyncStep envs fuel) acc).2.2,
        d.updated_at ≤
          (projects.foldl (fullSyncStep envs fuel) acc).1.last_issue_updated := by
  intro projects
  induction projects with
  | nil => exact fun acc h => h
  | cons pk pks ih =>
    intro acc h
    rw [List.foldl_cons]
    exact ih (fullSyncStep envs fuel acc pk)
      (fullSyncStep_watermark envs fuel s0 acc pk h)

theorem foldl_incrSyncStep_watermark (envs : String → SyncEnv) (fuel : Nat)
    (s0 : Nat) :
    ∀ (projects : List String) (acc : SyncState × SyncResult × List IssueDict),
      (s0 ≤ acc.1.last_issue_updated ∧
        ∀ d ∈ acc.2.2, d.updated_at ≤ acc.1.last_issue_updated) →
      s0 ≤ (projects.foldl (incrSyncStep envs fuel) acc).1.last_issue_updated ∧
      ∀ d ∈ (projects.foldl (incrSyncStep envs fuel) acc).2.2,
        d.updated_at ≤
          (projects.foldl (incrSyncStep envs fuel) acc).1.last_issue_updated := by
  intro projects
  induction projects with
  | nil => exact fun acc h => h
  | cons pk pks ih =>
    intro acc h
    rw [List.foldl_cons]
    exact ih (incrSyncStep envs fuel acc pk)
      (incrSyncStep_watermark envs fuel s0 acc pk h)

theorem full_sync_watermark (envs : String → SyncEnv) (projects : List String)
    (fuel : Nat) (now : Nat) (state0 : SyncState) :
    state0.last_issue_updated ≤
      (full_sync envs projects fuel now state0).1.last_issue_updated ∧
    ∀ d ∈ (full_sync envs projects fuel now state0).2.2,
      d.updated_at ≤
        (full_sync envs projects fuel now state0).1.last_issue_updated := by
  obtain ⟨h1, h2⟩ := foldl_fullSyncStep_watermark envs fuel
    state0.last_issue_updated projects (state0, emptySyncResult, [])
    ⟨Nat.le_refl _, fun d hd => absurd hd (List.not_mem_nil d)⟩
  exact ⟨h1, h2⟩

theorem incremental_sync_watermark (envs : String → SyncEnv)
    (dels : String → List String × (List String → Except Unit (List String)))
    (projects : List String) (fuel : Nat) (now : Nat) (state0 : SyncState) :
    state0.last_issue_updated ≤
      (incremental_sync envs dels projects fuel now state0).1.last_issue_updated ∧
    ∀ d ∈ (incremental_sync envs dels projects fuel now state0).2.2,
      d.updated_at ≤
        (incremental_sync envs dels projects fuel now
          state0).1.last_issue_updated := by
  obtain ⟨h1, h2⟩ := foldl_incrSyncStep_watermark envs fuel
    state0.last_issue_updated projects (state0, emptySyncResult, [])
    ⟨Nat.le_refl _, fun d hd => absurd hd (List.not_mem_nil d)⟩
  exact ⟨h1, h2⟩

theorem execRuns_watermark (state : SyncState) (runs : List SyncRun) :
    ∀ (acc : SyncState × List IssueDict),
      (state.last_issue_updated ≤ acc.1.last_issue_updated ∧
        ∀ d ∈ acc.2, d.updated_at ≤ acc.1.last_issue_updated) →
      state.last_issue_updated ≤
        (runs.foldl
          (fun acc run =>
            match run with
            | .full envs projects fuel now =>
              let r := full_sync envs projects fuel now acc.1
              (r.1, acc.2 ++ r.2.2)
            | .incr envs dels projects fuel now =>
              let r := incremental_sync envs dels projects fuel now acc.1
              (r.1, acc.2 ++ r.2.2)) acc).1.last_issue_updated ∧
      ∀ d ∈ (runs.foldl
          (fun acc run =>
            match run with
            | .full envs projects fuel now =>
              let r := full_sync envs projects fuel now acc.1
              (r.1, acc.2 ++ r.2.2)
            | .incr envs dels projects fuel now =>
              let r := incremental_sync envs dels projects fuel now acc.1
              (r.1, acc.2 ++ r.2.2)) acc).2,
        d.updated_at ≤
          (runs.foldl
            (fun acc run =>
              match run with
              | .full envs projects fuel now =>
                let r := full_sync envs projects fuel now acc.1
                (r.1, acc.2 ++ r.2.2)
              | .incr envs dels projects fuel now =>
                let r := incremental_sync envs dels projects fuel now acc.1
                (r.1, acc.2 ++ r.2.2)) acc).1.last_issue_updated := by
  induction runs with
  | nil => exact fun acc h => h
  | cons run rest ih =>
    intro acc h
    rw [List.foldl_cons]
    refine ih _ ?_
    cases run with
    | full envs projects fuel now =>
      obtain ⟨w1, w2⟩ := full_sync_watermark envs projects fuel now acc.1
      refine ⟨Nat.le_trans h.1 w1, fun d hd => ?_⟩
      rcases List.mem_append.mp hd with hold | hnew
      · exact Nat.le_trans (h.2 d hold) w1
      · exact w2 d hnew
    | incr envs dels projects fuel now =>
      obtain ⟨w1, w2⟩ := incremental_sync_watermark envs dels projects fuel now acc.1
      refine ⟨Nat.le_trans h.1 w1, fun d hd => ?_⟩
      rcases List.mem_append.mp hd with hold | hnew
      · exact Nat.le_trans (h.2 d hold) w1
      · exact w2 d hnew

/-- C1: the `last_issue_updated` watermark is monotone. For every
completed `full_sync` and every completed `incremental_sync`, the saved
`last_issue_updated` is at least its pre-run value and at least the
`updated_at` of every issue dict embedded (stored) during the run - the
per-project loop keeps `max_updated` above every dict it files for
embedding, and lines 500-502 commit it to the shared state before
comment sync can raise; and across any sequence of completed runs the
watermark never decreases and bounds every issue ever embedded. -/
theorem sync_watermark_monotone :
    (∀ (envs : String → SyncEnv) (projects : List String)
        (fuel now : Nat) (state0 : SyncState),
      state0.last_issue_updated ≤
        (full_sync envs projects fuel now state0).1.last_issue_updated ∧
      ∀ d ∈ (full_sync envs projects fuel now state0).2.2,
        d.updated_at ≤
          (full_sync envs projects fuel now state0).1.last_issue_updated) ∧
    (∀ (envs : String → SyncEnv)
        (dels : String → List String × (List String → Except Unit (List String)))
        (projects : List String) (fuel now : Nat) (state0 : SyncState),
      state0.last_issue_updated ≤
        (incremental_sync envs dels projects fuel now
          state0).1.last_issue_updated ∧
      ∀ d ∈ (incremental_sync envs dels projects fuel now state0).2.2,
        d.updated_at ≤
          (incremental_sync envs dels projects fuel now
            state0).1.last_issue_updated) ∧
    (∀ (state : SyncState) (runs : List SyncRun),
      state.last_issue_updated ≤
        (execRuns state runs).1.last_issue_updated ∧
      ∀ d ∈ (execRuns state runs).2,
        d.updated_at ≤ (execRuns state runs).1.last_issue_updated) := by
  refine ⟨full_sync_watermark, incremental_sync_watermark,
    fun state runs => ?_⟩
  exact execRuns_watermark state runs (state, [])
    ⟨Nat.le_refl _, fun d hd => absurd hd (List.not_mem_nil d)⟩

/-- The single remote issue of the C1 watermark witness run. -/
def c1Issue : RemoteIssue := ⟨"P-1", "s", none, [], "Open", 5⟩

/-- A one-page, one-issue environment for the C1 witness. -/
def c1Env : SyncEnv :=
  ⟨fun _ => Except.ok [c1Issue], fun _ => none, fun l => l.length,
    false, 50, [], fun _ => (0, 0, [])⟩

/-- The pre-run persisted state of the C1 witness. -/
def c1State : SyncState := ⟨0, 0, [], 0⟩

/-- The issue dict the C1 witness run embeds (hash is the modelled md5
pre-image). -/
def c1Dict : IssueDict := ⟨"P-1", "s", none, [], "Open", 5, "s|||Open"⟩

theorem sync_watermark_monotone_witness :
    c1Dict ∈ (execRuns c1State [SyncRun.full (fun _ => c1Env) ["P"] 1 7]).2 ∧
    c1Dict.updated_at ≤
      (execRuns c1State
        [SyncRun.full (fun _ => c1Env) ["P"] 1 7]).1.last_issue_updated :=
  ⟨by decide,
    (sync_watermark_monotone.2.2 c1State
      [SyncRun.full (fun _ => c1Env) ["P"] 1 7]).2 c1Dict (by decide)⟩

theorem commentKeysExpr_ne_nil (l : List (String × IssueDict)) (h : l ≠ []) :
    commentKeysExpr l =
      Except.error "TypeError: string indices must be integers" := by
  cases l with
  | nil => exact absurd rfl h
  | cons x xs =>
    simp only [commentKeysExpr]
    rw [if_neg (by simp)]
    rfl

/-- C10: on an incremental sync with comment syncing enabled whose final
embedding batch is non-empty (so `issues_to_embed` is a non-empty dict
when comment sync starts and at least one issue was embedded),
`_sync_project` evaluates `[i["issue_id"] for i in issues_to_embed]`,
which iterates the dict as its string keys and subscripts each with
`"issue_id"` - a `TypeError` that escapes `_sync_project`: the project
returns that error instead of a result, no comments are processed or
embedded, and `incremental_sync` records
`Error in incremental sync for <pk>: TypeError: ...` for the project. -/
theorem incremental_comment_sync_type_error (env : SyncEnv)
    (state : SyncState) (fuel : Nat)
    (hsc : env.sync_comments = true)
    (hne : (postLoopState env true state fuel).issues_to_embed ≠ [])
    (hemb : 0 < (postLoopState env true state fuel).res.issues_embedded) :
    (syncProject env true state fuel).2.2.2 =
      some "TypeError: string indices must be integers" ∧
    (syncProject env true state fuel).2.1.comments_processed = 0 ∧
    (syncProject env true state fuel).2.1.comments_embedded = 0 ∧
    ∀ (dels : String → List String × (List String → Except Unit (List String)))
      (pk : String) (now : Nat),
      (incremental_sync (fun _ => env) dels [pk] fuel now state).2.1.errors =
        ["Error in incremental sync for " ++ pk ++ ": " ++
          "TypeError: string indices must be integers"] := by
  have hkeys := commentKeysExpr_ne_nil _ hne
  obtain ⟨_, _, _, hcp, hce⟩ := postLoopState_spec env true state fuel
  have herr : (syncProject env true state fuel).2.2.2 =
      some "TypeError: string indices must be integers" ∧
      (syncProject env true state fuel).2.1 =
        (postLoopState env true state fuel).res := by
    simp only [syncProject]
    rw [if_pos ⟨hsc, hemb⟩]
    simp only [if_pos rfl, hkeys, if_true]
    exact ⟨trivial, trivial⟩
  refine ⟨herr.1, ?_, ?_, ?_⟩
  · rw [herr.2]; exact hcp
  · rw [herr.2]; exact hce
  · intro dels pk now
    simp only [incremental_sync, List.foldl_cons, List.foldl_nil,
      incrSyncStep, herr.1]
    simp only [emptySyncResult]
    rw [if_neg (by simp)]
    simp

/-- The single remote issue of the C10 witness run. -/
def c10Issue : RemoteIssue := ⟨"Q-1", "t", none, [], "Open", 9⟩

/-- A one-page, one-issue environment with comment syncing enabled for
the C10 witness (incremental batch size 50, so the only flush is the
final one, which leaves the dict non-empty). -/
def c10Env : SyncEnv :=
  ⟨fun _ => Except.ok [c10Issue], fun _ => none, fun l => l.length,
    true, 50, ["Q-1"], fun _ => (1, 1, [])⟩

/-- The pre-run persisted state of the C10 witness. -/
def c10State : SyncState := ⟨0, 0, ["Q"], 0⟩

theorem incremental_comment_sync_type_error_witness :
    (postLoopState c10Env true c10State 1).issues_to_embed ≠ [] ∧
    0 < (postLoopState c10Env true c10State 1).res.issues_embedded ∧
    (syncProject c10Env true c10State 1).2.2.2 =
      some "TypeError: string indices must be integers" :=
  ⟨by decide, by decide,
    (incremental_comment_sync_type_error c10Env c10State 1 rfl (by decide)
      (by decide)).1⟩

/-! ## C7: `schemas.clean_jira_markup` (lines 114-163)

Each `re.sub` pass is a left-to-right scanner: at each position the
pattern-specific matcher either returns (replacement, consumed ≥ 1) -
the deterministic residue of the regex's backtracking at that position -
or the scanner advances one character. The two brace characters are
written via `Char.ofNat`. -/

/-- Left brace character. -/
def lbrace : Char := Char.ofNat 123

/-- Right brace character. -/
def rbrace : Char := Char.ofNat 125

/-- First index of `s` at which `pat` occurs (the lazy `.*?` search
target), if any. -/
def findSub (pat : List Char) : List Char → Option Nat
  | [] => if ([] : List Char).take pat.length = pat then some 0 else none
  | c :: rest =>
    if (c :: rest).take pat.length = pat then some 0
    else (findSub pat rest).map (fun n => n + 1)

/-- One `re.sub` pass (fueled by the string length; every match consumes
at least one character, so the fuel suffices). -/
def scanSubFuel (m : List Char → Option (List Char × Nat)) :
    Nat → List Char → List Char
  | 0, _ => []
  | _ + 1, [] => []
  | fuel + 1, c :: rest =>
    match m (c :: rest) with
    | some (r, k) => r ++ scanSubFuel m fuel ((c :: rest).drop k)
    | none => c :: scanSubFuel m fuel rest

/-- `re.sub(pattern-encoded-as-m, ..., s)`. -/
def scanSub (m : List Char → Option (List Char × Nat)) (s : List Char) :
    List Char :=
  scanSubFuel m s.length s

/-- `\x7bcode[^\x7d]*\x7d.*?\x7bcode\x7d` (DOTALL) ↦ `[code snippet]`:
literal `\x7bcode`, a greedy run of non-`\x7d`, `\x7d`, then the lazy
body up to the earliest closing `\x7bcode\x7d`. -/
def matchCodeBlock (s : List Char) : Option (List Char × Nat) :=
  if s.take 5 = "\x7bcode".data then
    let t := s.drop 5
    let run := t.takeWhile (fun c => decide (c ≠ rbrace))
    if (t.drop run.length).take 1 = [rbrace] then
      match findSub "\x7bcode\x7d".data (t.drop (run.length + 1)) with
      | some j => some ("[code snippet]".data, 5 + run.length + 1 + j + 6)
      | none => none
    else none
  else none

/-- `\x7bpanel[^\x7d]*\x7d(.*?)\x7bpanel\x7d` (DOTALL) ↦ the captured
body. -/
def matchPanel (s : List Char) : Option (List Char × Nat) :=
  if s.take 6 = "\x7bpanel".data then
    let t := s.drop 6
    let run := t.takeWhile (fun c => decide (c ≠ rbrace))
    if (t.drop run.length).take 1 = [rbrace] then
      let u := t.drop (run.length + 1)
      match findSub "\x7bpanel\x7d".data u with
      | some j => some (u.take j, 6 + run.length + 1 + j + 7)
      | none => none
    else none
  else none

/-- `\x7bnoformat\x7d(.*?)\x7bnoformat\x7d` (DOTALL) ↦ the captured
body. -/
def matchNoformat (s : List Char) : Option (List Char × Nat) :=
  if s.take 10 = "\x7bnoformat\x7d".data then
    let u := s.drop 10
    match findSub "\x7bnoformat\x7d".data u with
    | some j => some (u.take j, 10 + j + 10)
    | none => none
  else none

/-- The `[\w.-]` class (ASCII `\w` plus dot and dash). -/
def wordish (c : Char) : Bool := c.isAlphanum || c = '_' || c = '.' || c = '-'

/-- `![\w.-]+\|?[^!]*!` ↦ empty: a match exists at this position exactly
when a `!` is followed by a `[\w.-]` character and a later `!` exists,
and all backtracking residues end at that first later `!`. -/
def matchImage (s : List Char) : Option (List Char × Nat) :=
  if s.take 1 = ['!'] then
    let t := s.drop 1
    match t with
    | c :: _ =>
      if wordish c then
        match findSub ['!'] t with
        | some j => some ([], 1 + j + 1)
        | none => none
      else none
    | [] => none
  else none

/-- `\[~([^\]]+)\]` ↦ the capture (mention keeps the name). -/
def matchMention (s : List Char) : Option (List Char × Nat) :=
  if s.take 2 = "[~".data then
    let r := (s.drop 2).takeWhile (fun c => decide (c ≠ ']'))
    if r.length = 0 then none
    else if ((s.drop 2).drop r.length).take 1 = [']'] then
      some (r, 2 + r.length + 1)
    else none
  else none

/-- `\[~accountid:[^\]]+\]` ↦ empty. -/
def matchMentionAccount (s : List Char) : Option (List Char × Nat) :=
  if s.take 12 = "[~accountid:".data then
    let r := (s.drop 12).takeWhile (fun c => decide (c ≠ ']'))
    if r.length = 0 then none
    else if ((s.drop 12).drop r.length).take 1 = [']'] then
      some ([], 12 + r.length + 1)
    else none
  else none

/-- `\[([^\]|]+)\|[^\]]+\]` ↦ the link label. -/
def matchLink (s : List Char) : Option (List Char × Nat) :=
  if s.take 1 = ['['] then
    let t := s.drop 1
    let r1 := t.takeWhile (fun c => decide (c ≠ ']' ∧ c ≠ '|'))
    if r1.length = 0 then none
    else if (t.drop r1.length).take 1 = ['|'] then
      let r2 := (t.drop (r1.length + 1)).takeWhile (fun c => decide (c ≠ ']'))
      if r2.length = 0 then none
      else if ((t.drop (r1.length + 1)).drop r2.length).take 1 = [']'] then
        some (r1, 1 + r1.length + 1 + r2.length + 1)
      else none
    else none
  else none

/-- `https?://\S+` ↦ empty. -/
def matchUrl (s : List Char) : Option (List Char × Nat) :=
  if s.take 4 = "http".data then
    if (s.drop 4).take 4 = "s://".data then
      let r := (s.drop 8).takeWhile (fun c => !pyWs c)
      if r.length = 0 then none else some ([], 8 + r.length)
    else if (s.drop 4).take 3 = "://".data then
      let r := (s.drop 7).takeWhile (fun c => !pyWs c)
      if r.length = 0 then none else some ([], 7 + r.length)
    else none
  else none

/-- `\x7b[a-z]+[^\x7d]*\x7d` ↦ empty (the leftover-tag pass). -/
def matchBraceTag (s : List Char) : Option (List Char × Nat) :=
  if s.take 1 = [lbrace] then
    let t := s.drop 1
    match t with
    | c :: _ =>
      if decide ('a' ≤ c ∧ c ≤ 'z') then
        let run := t.takeWhile (fun c2 => decide (c2 ≠ rbrace))
        if (t.drop run.length).take 1 = [rbrace] then
          some ([], 1 + run.length + 1)
        else none
      else none
    | [] => none
  else none

/-- `\*\*([^*]+)\*\*` ↦ the capture. -/
def matchBold (s : List Char) : Option (List Char × Nat) :=
  if s.take 2 = "**".data then
    let r := (s.drop 2).takeWhile (fun c => decide (c ≠ '*'))
    if r.length = 0 then none
    else if ((s.drop 2).drop r.length).take 2 = "**".data then
      some (r, 2 + r.length + 2)
    else none
  else none

/-- `\*([^*]+)\*` ↦ the capture. -/
def matchItalic (s : List Char) : Option (List Char × Nat) :=
  if s.take 1 = ['*'] then
    let r := (s.drop 1).takeWhile (fun c => decide (c ≠ '*'))
    if r.length = 0 then none
    else if ((s.drop 1).drop r.length).take 1 = ['*'] then
      some (r, 1 + r.length + 1)
    else none
  else none

/-- `_([^_]+)_` ↦ the capture. -/
def matchUnderscore (s : List Char) : Option (List Char × Nat) :=
  if s.take 1 = ['_'] then
    let r := (s.drop 1).takeWhile (fun c => decide (c ≠ '_'))
    if r.length = 0 then none
    else if ((s.drop 1).drop r.length).take 1 = ['_'] then
      some (r, 1 + r.length + 1)
    else none
  else none

/-- `~~([^~]+)~~` ↦ the capture. -/
def matchStrike (s : List Char) : Option (List Char × Nat) :=
  if s.take 2 = "~~".data then
    let r := (s.drop 2).takeWhile (fun c => decide (c ≠ '~'))
    if r.length = 0 then none
    else if ((s.drop 2).drop r.length).take 2 = "~~".data then
      some (r, 2 + r.length + 2)
    else none
  else none

/-- `^[\s]*[-*#]+\s*` (MULTILINE) at a line start: the whitespace run
(which may span line breaks), at least one bullet character, the
trailing whitespace run; returns the consumed length. -/
def matchBullet (s : List Char) : Option Nat :=
  let w := s.takeWhile pyWs
  let t := s.drop w.length
  let b := t.takeWhile (fun c => decide (c = '-' ∨ c = '*' ∨ c = '#'))
  if b.length = 0 then none
  else some (w.length + b.length + ((t.drop b.length).takeWhile pyWs).length)

/-- The MULTILINE bullet pass: a position is a line start when it is
position 0 or the previous character is a newline, and `^` anchors the
pattern there. -/
def bulletScanFuel : Nat → Bool → List Char → List Char
  | 0, _, _ => []
  | _ + 1, _, [] => []
  | fuel + 1, atStart, c :: rest =>
    if atStart then
      match matchBullet (c :: rest) with
      | some k =>
        bulletScanFuel fuel
          (decide (((c :: rest).take k).getLast? = some (Char.ofNat 10)))
          ((c :: rest).drop k)
      | none => c :: bulletScanFuel fuel (decide (c = Char.ofNat 10)) rest
    else c :: bulletScanFuel fuel (decide (c = Char.ofNat 10)) rest

/-- `re.sub(bullet-pattern, "", s, flags=re.MULTILINE)`. -/
def bulletSub (s : List Char) : List Char := bulletScanFuel s.length true s

/-- `\s+` ↦ a single space (whitespace normalisation). -/
def matchWsRun (s : List Char) : Option (List Char × Nat) :=
  match s with
  | c :: _ => if pyWs c then some ([' '], (s.takeWhile pyWs).length) else none
  | [] => none

/-- `schemas.clean_jira_markup`: the empty-input short-circuit and the
fifteen passes of lines 127-161 in source order, ending in `strip()`. -/
def clean_jira_markup (text : List Char) : List Char :=
  if text = [] then []
  else
    let t := scanSub matchCodeBlock text
    let t := scanSub matchPanel t
    let t := scanSub matchNoformat t
    let t := scanSub matchImage t
    let t := scanSub matchMention t
    let t := scanSub matchMentionAccount t
    let t := scanSub matchLink t
    let t := scanSub matchUrl t
    let t := scanSub matchBraceTag t
    let t := scanSub matchBold t
    let t := scanSub matchItalic t
    let t := scanSub matchUnderscore t
    let t := scanSub matchStrike t
    let t := bulletSub t
    let t := scanSub matchWsRun t
    pyStrip t

/-- C7 counterexample: `clean_jira_markup` is NOT idempotent. On
`"- -"` the MULTILINE bullet pass strips the leading `"- "` giving
`"-"`; cleaning again, the leftover `"-"` now sits at a line start and
is stripped too, giving `""`. -/
theorem clean_jira_markup_not_idempotent :
    clean_jira_markup (clean_jira_markup "- -".data) ≠
      clean_jira_markup "- -".data := by decide

/-- A character surviving in plain cleaned text: alphanumeric or a
space. -/
def plainChar (c : Char) : Prop := c.isAlphanum = true ∨ c = ' '

instance (c : Char) : Decidable (plainChar c) := by
  unfold plainChar; infer_instance

/-- No two adjacent spaces. -/
def noDoubleSpace : List Char → Bool
  | c :: d :: rest => !(c = ' ' && d = ' ') && noDoubleSpace (d :: rest)
  | _ => true

/-- Plain text: only alphanumerics and single interior spaces. -/
def Plain (s : List Char) : Prop :=
  (∀ c ∈ s, plainChar c) ∧ noDoubleSpace s = true ∧
    s.head? ≠ some ' ' ∧ s.getLast? ≠ some ' '

instance (s : List Char) : Decidable (Plain s) := by
  unfold Plain; infer_instance

theorem scanSubFuel_id (m : List Char → Option (List Char × Nat)) :
    ∀ (fuel : Nat) (s : List Char), s.length ≤ fuel →
      (∀ n, m (s.drop n) = none) → scanSubFuel m fuel s = s := by
  intro fuel
  induction fuel with
  | zero =>
    intro s hlen _
    rw [Nat.le_zero, List.length_eq_zero] at hlen
    subst hlen; rfl
  | succ fuel ih =>
    intro s hlen h
    cases s with
    | nil => rfl
    | cons c rest =>
      have h0 : m (c :: rest) = none := by
        have := h 0
        rwa [List.drop_zero] at this
      simp only [scanSubFuel, h0]
      have : scanSubFuel m fuel rest = rest := by
        refine ih rest (by simpa using Nat.le_of_succ_le_succ hlen) (fun n => ?_)
        have := h (n + 1)
        rwa [List.drop_succ_cons] at this
      rw [this]

theorem scanSub_id (m : List Char → Option (List Char × Nat))
    (s : List Char) (h : ∀ n, m (s.drop n) = none) : scanSub m s = s :=
  scanSubFuel_id m s.length s (Nat.le_refl _) h

theorem plain_drop (s : List Char) (h : ∀ c ∈ s, plainChar c) (n : Nat) :
    ∀ c ∈ s.drop n, plainChar c :=
  fun c hc => h c (List.mem_of_mem_drop hc)

theorem alnum_not_ws (c : Char) (ha : c.isAlphanum = true) :
    pyWs c = false := by
  by_contra hws
  rw [Bool.not_eq_false] at hws
  simp only [pyWs, Bool.or_eq_true, decide_eq_true_eq] at hws
  rcases hws with ((((h | h) | h) | h) | h) | h <;>
    (subst h; exact absurd ha (by decide))

theorem plain_not_nl (c : Char) (h : plainChar c) : c ≠ Char.ofNat 10 := by
  intro he
  subst he
  rcases h with ha | hs
  · exact absurd ha (by decide)
  · exact absurd hs (by decide)

theorem matchCodeBlock_plain (s : List Char) (h : ∀ c ∈ s, plainChar c) :
    matchCodeBlock s = none := by
  have hcond : ¬ (s.take 5 = "\x7bcode".data) := by
    intro hpre
    exact absurd
      (h _ (List.mem_of_mem_take (show lbrace ∈ s.take 5 by rw [hpre]; decide)))
      (by decide)
  simp only [matchCodeBlock]
  rw [if_neg hcond]

theorem matchPanel_plain (s : List Char) (h : ∀ c ∈ s, plainChar c) :
    matchPanel s = none := by
  have hcond : ¬ (s.take 6 = "\x7bpanel".data) := by
    intro hpre
    exact absurd
      (h _ (List.mem_of_mem_take (show lbrace ∈ s.take 6 by rw [hpre]; decide)))
      (by decide)
  simp only [matchPanel]
  rw [if_neg hcond]

theorem matchNoformat_plain (s : List Char) (h : ∀ c ∈ s, plainChar c) :
    matchNoformat s = none := by
  have hcond : ¬ (s.take 10 = "\x7bnoformat\x7d".data) := by
    intro hpre
    exact absurd
      (h _ (List.mem_of_mem_take (show lbrace ∈ s.take 10 by rw [hpre]; decide)))
      (by decide)
  simp only [matchNoformat]
  rw [if_neg hcond]

theorem matchImage_plain (s : List Char) (h : ∀ c ∈ s, plainChar c) :
    matchImage s = none := by
  have hcond : ¬ (s.take 1 = ['!']) := by
    intro hpre
    exact absurd
      (h _ (List.mem_of_mem_take (show '!' ∈ s.take 1 by rw [hpre]; decide)))
      (by decide)
  simp only [matchImage]
  rw [if_neg hcond]

theorem matchMention_plain (s : List Char) (h : ∀ c ∈ s, plainChar c) :
    matchMention s = none := by
  have hcond : ¬ (s.take 2 = "[~".data) := by
    intro hpre
    exact absurd
      (h _ (List.mem_of_mem_take (show '[' ∈ s.take 2 by rw [hpre]; decide)))
      (by decide)
  simp only [matchMention]
  rw [if_neg hcond]

theorem matchMentionAccount_plain (s : List Char) (h : ∀ c ∈ s, plainChar c) :
    matchMentionAccount s = none := by
  have hcond : ¬ (s.take 12 = "[~accountid:".data) := by
    intro hpre
    exact absurd
      (h _ (List.mem_of_mem_take (show '[' ∈ s.take 12 by rw [hpre]; decide)))
      (by decide)
  simp only [matchMentionAccount]
  rw [if_neg hcond]

theorem matchLink_plain (s : List Char) (h : ∀ c ∈ s, plainChar c) :
    matchLink s = none := by
  have hcond : ¬ (s.take 1 = ['[']) := by
    intro hpre
    exact absurd
      (h _ (List.mem_of_mem_take (show '[' ∈ s.take 1 by rw [hpre]; decide)))
      (by decide)
  simp only [matchLink]
  rw [if_neg hcond]

theorem matchUrl_plain (s : List Char) (h : ∀ c ∈ s, plainChar c) :
    matchUrl s = none := by
  have h1 : ¬ ((s.drop 4).take 4 = "s://".data) := by
    intro hpre
    exact absurd
      (h _ (List.mem_of_mem_drop (List.mem_of_mem_take
        (show ':' ∈ (s.drop 4).take 4 by rw [hpre]; decide))))
      (by decide)
  have h2 : ¬ ((s.drop 4).take 3 = "://".data) := by
    intro hpre
    exact absurd
      (h _ (List.mem_of_mem_drop (List.mem_of_mem_take
        (show ':' ∈ (s.drop 4).take 3 by rw [hpre]; decide))))
      (by decide)
  simp only [matchUrl]
  rw [if_neg h1, if_neg h2]
  split <;> rfl

theorem matchBraceTag_plain (s : List Char) (h : ∀ c ∈ s, plainChar c) :
    matchBraceTag s = none := by
  have hcond : ¬ (s.take 1 = [lbrace]) := by
    intro hpre
    exact absurd
      (h _ (List.mem_of_mem_take (show lbrace ∈ s.take 1 by rw [hpre]; decide)))
      (by decide)
  simp only [matchBraceTag]
  rw [if_neg hcond]

theorem matchBold_plain (s : List Char) (h : ∀ c ∈ s, plainChar c) :
    matchBold s = none := by
  have hcond : ¬ (s.take 2 = "**".data) := by
    intro hpre
    exact absurd
      (h _ (List.mem_of_mem_take (show '*' ∈ s.take 2 by rw [hpre]; decide)))
      (by decide)
  simp only [matchBold]
  rw [if_neg hcond]

theorem matchItalic_plain (s : List Char) (h : ∀ c ∈ s, plainChar c) :
    matchItalic s = none := by
  have hcond : ¬ (s.take 1 = ['*']) := by
    intro hpre
    exact absurd
      (h _ (List.mem_of_mem_take (show '*' ∈ s.take 1 by rw [hpre]; decide)))
      (by decide)
  simp only [matchItalic]
  rw [if_neg hcond]

theorem matchUnderscore_plain (s : List Char) (h : ∀ c ∈ s, plainChar c) :
    matchUnderscore s = none := by
  have hcond : ¬ (s.take 1 = ['_']) := by
    intro hpre
    exact absurd
      (h _ (List.mem_of_mem_take (show '_' ∈ s.take 1 by rw [hpre]; decide)))
      (by decide)
  simp only [matchUnderscore]
  rw [if_neg hcond]

theorem matchStrike_plain (s : List Char) (h : ∀ c ∈ s, plainChar c) :
    matchStrike s = none := by
  have hcond : ¬ (s.take 2 = "~~".data) := by
    intro hpre
    exact absurd
      (h _ (List.mem_of_mem_take (show '~' ∈ s.take 2 by rw [hpre]; decide)))
      (by decide)
  simp only [matchStrike]
  rw [if_neg hcond]

theorem bulletScanFuel_id_false :
    ∀ (fuel : Nat) (s : List Char), s.length ≤ fuel →
      (∀ c ∈ s, plainChar c) → bulletScanFuel fuel false s = s := by
  intro fuel
  induction fuel with
  | zero =>
    intro s hlen _
    rw [Nat.le_zero, List.length_eq_zero] at hlen
    subst hlen; rfl
  | succ fuel ih =>
    intro s hlen h
    cases s with
    | nil => rfl
    | cons c rest =>
      show c :: bulletScanFuel fuel (decide (c = Char.ofNat 10)) rest = c :: rest
      have hc := plain_not_nl c (h c (List.mem_cons_self c rest))
      rw [decide_eq_false hc]
      rw [ih rest (by simpa using Nat.le_of_succ_le_succ hlen)
        (fun d hd => h d (List.mem_cons_of_mem c hd))]

theorem matchBullet_plain (s : List Char) (h : ∀ c ∈ s, plainChar c)
    (hh : s.head? ≠ some ' ') : matchBullet s = none := by
  cases s with
  | nil => rfl
  | cons c rest =>
    have hcs : c ≠ ' ' := fun he => hh (by rw [List.head?_cons, he])
    have hpc := h c (List.mem_cons_self c rest)
    have hws : pyWs c = false := by
      rcases hpc with ha | hs
      · exact alnum_not_ws c ha
      · exact absurd hs hcs
    have hb : decide (c = '-' ∨ c = '*' ∨ c = '#') = false := by
      apply decide_eq_false
      rintro (he | he | he) <;>
        (subst he; rcases hpc with ha | hs
         · exact absurd ha (by decide)
         · exact absurd hs (by decide))
    simp [matchBullet, List.takeWhile_cons, hws, hb]
    simpa using hb

theorem bulletSub_id (s : List Char) (h : ∀ c ∈ s, plainChar c)
    (hh : s.head? ≠ some ' ') : bulletSub s = s := by
  cases s with
  | nil => rfl
  | cons c rest =>
    have hmb := matchBullet_plain (c :: rest) h hh
    show bulletScanFuel (c :: rest).length true (c :: rest) = c :: rest
    simp only [List.length_cons, bulletScanFuel, if_true, hmb]
    have hc := plain_not_nl c (h c (List.mem_cons_self c rest))
    rw [decide_eq_false hc]
    rw [bulletScanFuel_id_false rest.length rest (Nat.le_refl _)
      (fun d hd => h d (List.mem_cons_of_mem c hd))]

theorem noDoubleSpace_tail (c : Char) (rest : List Char)
    (h : noDoubleSpace (c :: rest) = true) : noDoubleSpace rest = true := by
  cases rest with
  | nil => rfl
  | cons d r2 =>
    simp only [noDoubleSpace, Bool.and_eq_true] at h
    exact h.2

theorem collapse_id_fuel :
    ∀ (fuel : Nat) (s : List Char), s.length ≤ fuel →
      (∀ c ∈ s, plainChar c) → noDoubleSpace s = true →
      scanSubFuel matchWsRun fuel s = s := by
  intro fuel
  induction fuel with
  | zero =>
    intro s hlen _ _
    rw [Nat.le_zero, List.length_eq_zero] at hlen
    subst hlen; rfl
  | succ fuel ih =>
    intro s hlen h hnd
    cases s with
    | nil => rfl
    | cons c rest =>
      have hpc := h c (List.mem_cons_self c rest)
      have hrest : ∀ d ∈ rest, plainChar d :=
        fun d hd => h d (List.mem_cons_of_mem c hd)
      have hlen2 : rest.length ≤ fuel := by
        simpa using Nat.le_of_succ_le_succ hlen
      by_cases hcs : c = ' '
      · subst hcs
        have hrun : ((' ' :: rest).takeWhile pyWs).length = 1 := by
          rw [List.takeWhile_cons]
          rw [show pyWs ' ' = true from rfl, if_pos rfl]
          cases rest with
          | nil => rfl
          | cons d r2 =>
            have hd : d ≠ ' ' := by
              intro he; subst he
              simp only [noDoubleSpace, Bool.and_eq_true] at hnd
              rcases hnd with ⟨h1, _⟩
              simp at h1
            have hdw : pyWs d = false := by
              rcases h d (List.mem_cons_of_mem _ (List.mem_cons_self d r2)) with ha | hs
              · exact alnum_not_ws d ha
              · exact absurd hs hd
            rw [List.takeWhile_cons, hdw]
            rfl
        have hm : matchWsRun (' ' :: rest) = some ([' '], 1) := by
          simp only [matchWsRun]
          rw [show pyWs ' ' = true from rfl, if_pos rfl, hrun]
        simp only [scanSubFuel, hm]
        rw [List.drop_succ_cons, List.drop_zero]
        rw [ih rest hlen2 hrest (noDoubleSpace_tail _ _ hnd)]
        rfl
      · have hws : pyWs c = false := by
          rcases hpc with ha | hs
          · exact alnum_not_ws c ha
          · exact absurd hs hcs
        have hm : matchWsRun (c :: rest) = none := by
          simp only [matchWsRun]
          rw [hws]
          rfl
        simp only [scanSubFuel, hm]
        rw [ih rest hlen2 hrest (noDoubleSpace_tail _ _ hnd)]

theorem collapse_id (s : List Char) (h : ∀ c ∈ s, plainChar c)
    (hnd : noDoubleSpace s = true) : scanSub matchWsRun s = s :=
  collapse_id_fuel s.length s (Nat.le_refl _) h hnd

theorem dropWhile_pyWs_id (s : List Char) (h : ∀ c ∈ s, plainChar c)
    (hh : s.head? ≠ some ' ') : s.dropWhile pyWs = s := by
  cases s with
  | nil => rfl
  | cons c rest =>
    have hcs : c ≠ ' ' := fun he => hh (by rw [List.head?_cons, he])
    have hws : pyWs c = false := by
      rcases h c (List.mem_cons_self c rest) with ha | hs
      · exact alnum_not_ws c ha
      · exact absurd hs hcs
    rw [List.dropWhile_cons, hws]
    rfl

theorem pyStrip_id (s : List Char) (h : ∀ c ∈ s, plainChar c)
    (hh : s.head? ≠ some ' ') (hl : s.getLast? ≠ some ' ') :
    pyStrip s = s := by
  have h1 : s.dropWhile pyWs = s := dropWhile_pyWs_id s h hh
  have h2 : s.reverse.dropWhile pyWs = s.reverse := by
    refine dropWhile_pyWs_id s.reverse
      (fun c hc => h c (List.mem_reverse.mp hc)) ?_
    rw [List.head?_reverse]
    exact hl
  rw [pyStrip, h1, h2, List.reverse_reverse]

/-- C7 (amended): `clean_jira_markup` is a fixpoint on plain text - on
any string of alphanumerics and single interior spaces every pass
matches nowhere and the function is the identity; hence it IS idempotent
at every input whose cleaned output is plain (the general claim is
refuted by the bullet pass, see the counterexample). -/
theorem clean_jira_markup_plain_fixpoint :
    (∀ y : List Char, Plain y → clean_jira_markup y = y) ∧
    (∀ x : List Char, Plain (clean_jira_markup x) →
      clean_jira_markup (clean_jira_markup x) = clean_jira_markup x) := by
  have hfix : ∀ y : List Char, Plain y → clean_jira_markup y = y := by
    intro y hy
    obtain ⟨hch, hnd, hhd, hlast⟩ := hy
    by_cases hnil : y = []
    · subst hnil; rfl
    · simp only [clean_jira_markup]
      rw [if_neg hnil]
      rw [scanSub_id matchCodeBlock y
        (fun n => matchCodeBlock_plain _ (plain_drop y hch n))]
      rw [scanSub_id matchPanel y
        (fun n => matchPanel_plain _ (plain_drop y hch n))]
      rw [scanSub_id matchNoformat y
        (fun n => matchNoformat_plain _ (plain_drop y hch n))]
      rw [scanSub_id matchImage y
        (fun n => matchImage_plain _ (plain_drop y hch n))]
      rw [scanSub_id matchMention y
        (fun n => matchMention_plain _ (plain_drop y hch n))]
      rw [scanSub_id matchMentionAccount y
        (fun n => matchMentionAccount_plain _ (plain_drop y hch n))]
      rw [scanSub_id matchLink y
        (fun n => matchLink_plain _ (plain_drop y hch n))]
      rw [scanSub_id matchUrl y
        (fun n => matchUrl_plain _ (plain_drop y hch n))]
      rw [scanSub_id matchBraceTag y
        (fun n => matchBraceTag_plain _ (plain_drop y hch n))]
      rw [scanSub_id matchBold y
        (fun n => matchBold_plain _ (plain_drop y hch n))]
      rw [scanSub_id matchItalic y
        (fun n => matchItalic_plain _ (plain_drop y hch n))]
      rw [scanSub_id matchUnderscore y
        (fun n => matchUnderscore_plain _ (plain_drop y hch n))]
      rw [scanSub_id matchStrike y
        (fun n => matchStrike_plain _ (plain_drop y hch n))]
      rw [bulletSub_id y hch hhd]
      rw [collapse_id y hch hnd]
      exact pyStrip_id y hch hhd hlast
  exact ⟨hfix, fun x hx => hfix _ hx⟩

theorem clean_jira_markup_plain_fixpoint_witness :
    Plain (clean_jira_markup "**hello** world".data) ∧
    clean_jira_markup (clean_jira_markup "**hello** world".data) =
      clean_jira_markup "**hello** world".data :=
  ⟨by decide,
    clean_jira_markup_plain_fixpoint.2 "**hello** world".data (by decide)⟩

end McpAtlassian
